import Mathlib

/-!
Verification of the deterministic guidance composer in
`ai-service/src/services/aiService.ts`.

Strings are modelled as `List Char`, one entry per UTF-16 code unit; every
character appearing in the program's data and in the inputs considered here
lies in the Basic Multilingual Plane, where a JavaScript string index and a
code point coincide.  JavaScript numbers are modelled exactly: unsigned
32-bit hash arithmetic as `Nat` with `% 2^32`, the signed `>>` shift and the
sign-preserving `%` as `Int` operations.  `Array.prototype.sort` is modelled
as a stable sort, matching the ES2019 requirement.  `String.prototype.toLowerCase`
is modelled on the ASCII range, which covers the program's lexicons.
-/

namespace AiService

abbrev Str := List Char

/-- JavaScript `\s` character class (the white-space code units). -/
def isWsC (c : Char) : Bool :=
  c = ' ' ∨ c = '\t' ∨ c = '\n' ∨ c = '\r' ∨
  c.toNat = 11 ∨ c.toNat = 12 ∨ c.toNat = 0xa0 ∨ c.toNat = 0x1680 ∨
  (0x2000 ≤ c.toNat ∧ c.toNat ≤ 0x200a) ∨ c.toNat = 0x2028 ∨ c.toNat = 0x2029 ∨
  c.toNat = 0x202f ∨ c.toNat = 0x205f ∨ c.toNat = 0x3000 ∨ c.toNat = 0xfeff

def isLetterC (c : Char) : Bool :=
  ('A' ≤ c ∧ c ≤ 'Z') ∨ ('a' ≤ c ∧ c ≤ 'z')

def isDigitC (c : Char) : Bool := '0' ≤ c ∧ c ≤ '9'

/-- JavaScript `\w` / word character, as used by the `\b` boundary. -/
def isWordC (c : Char) : Bool := isLetterC c || isDigitC c || c = '_'

/-- ASCII lower-casing of one character (`toLowerCase` on the program's data). -/
def lowerC (c : Char) : Char :=
  if 'A' ≤ c ∧ c ≤ 'Z' then Char.ofNat (c.toNat + 32) else c

def lower (s : Str) : Str := s.map lowerC

/-- `s.replace(/\s+/g, " ")`: each maximal white-space run becomes one space.
The flag records whether the previous character was white space. -/
def collapseAux : Bool → Str → Str
  | _, [] => []
  | prevWs, c :: l =>
    if isWsC c then
      (if prevWs then collapseAux true l else ' ' :: collapseAux true l)
    else c :: collapseAux false l

def collapseWs (s : Str) : Str := collapseAux false s

def trimStart (s : Str) : Str := s.dropWhile isWsC

def trimEnd (s : Str) : Str := (s.reverse.dropWhile isWsC).reverse

/-- `String.prototype.trim`. -/
def jsTrim (s : Str) : Str := trimEnd (trimStart s)

/-- `(text ?? "").replace(/\s+/g, " ").trim()` — the `raw0` normalisation. -/
def normalizeInput (s : Str) : Str := jsTrim (collapseWs s)

/-- `String.prototype.includes` (substring containment). -/
def includes : Str → Str → Bool
  | n, [] => n.isPrefixOf []
  | n, c :: t => n.isPrefixOf (c :: t) || includes n t

theorem includes_iff (n h : Str) : includes n h = true ↔ n <:+: h := by
  induction h with
  | nil =>
    simp only [includes, List.isPrefixOf_iff_prefix]
    constructor
    · intro hp; exact hp.isInfix
    · intro hi
      have : n = [] := List.eq_nil_of_sublist_nil hi.sublist
      simp [this]
  | cons c t ih =>
    simp [includes, List.isPrefixOf_iff_prefix, ih]
    constructor
    · rintro (hp | hi)
      · exact hp.isInfix
      · exact hi.trans (List.infix_cons_iff.mpr (Or.inr (List.infix_refl t)))
    · intro hi
      rcases List.infix_cons_iff.mp hi with hp | hi'
      · exact Or.inl hp
      · exact Or.inr hi'

/-- `s.replace(/\s+\S*$/, "")`: drop the final white-space run and whatever
follows it; a string with no white space is unchanged. -/
def dropBack (l : Str) : Str :=
  match l.reverse.dropWhile (fun c => !isWsC c) with
  | [] => l
  | r1 => (r1.dropWhile isWsC).reverse

/-- FNV-1a 32-bit hash over UTF-16 code units (`hash32` in the source):
`h ^= code; h = Math.imul(h, 16777619) >>> 0`. -/
def hash32 (s : Str) : Nat :=
  s.foldl (fun h c => Nat.xor h c.toNat * 16777619 % 4294967296) 2166136261

/-- `ToInt32`: reinterpret an unsigned 32-bit value as signed. -/
def int32 (n : Nat) : Int :=
  if n % 4294967296 < 2147483648 then (n % 4294967296 : Int)
  else (n % 4294967296 : Int) - 4294967296

/-- JavaScript `n >> k` on a value held as a `Nat`: convert to signed 32-bit,
then arithmetic (floor) shift. -/
def jsShr (n : Nat) (k : Nat) : Int := Int.fdiv (int32 n) (2 ^ k)

/-- JavaScript `%` on integers: remainder with the sign of the dividend. -/
def jsRem (a : Int) (n : Nat) : Int := Int.tmod a (n : Int)

/-- `Array.from(new Set(arr))`: first-occurrence de-duplication. -/
def uniqAux : List Str → List Str → List Str
  | _, [] => []
  | seen, a :: l =>
    if a ∈ seen then uniqAux seen l else a :: uniqAux (a :: seen) l

def uniq (l : List Str) : List Str := uniqAux [] l

/-- Split at every white-space character (runs yield empty chunks, which the
callers filter away, matching `split(/\s+/)` up to empties). -/
def splitSp : Str → List Str
  | [] => [[]]
  | c :: l =>
    if isWsC c then [] :: splitSp l
    else
      match splitSp l with
      | [] => [[c]]
      | h :: t => (c :: h) :: t

/-- `Array.prototype.join` with a separator. -/
def joinWith (sep : Str) : List Str → Str
  | [] => []
  | [a] => a
  | a :: b :: t => a ++ sep ++ joinWith sep (b :: t)

/-- The stressor lexicon scanned against the lower-cased input. -/
def stressorLex : List Str :=
  ["exam".data, "exams".data, "test".data, "tests".data, "deadline".data,
   "deadlines".data, "assignment".data, "assignments".data, "project".data,
   "projects".data, "workload".data, "homework".data, "sleep".data,
   "insomnia".data, "fatigue".data, "family".data, "relationship".data,
   "friend".data, "team".data, "group".data, "money".data, "finance".data,
   "health".data, "presentation".data, "interview".data, "coding".data,
   "bug".data, "debug".data, "grade".data, "grades".data, "gpa".data,
   "thesis".data]

/-- The canonicalisation table of `normalizeStressor`. -/
def canonMap : List (Str × Str) :=
  [("exams".data, "exams".data), ("exam".data, "exams".data),
   ("tests".data, "exams".data), ("test".data, "exams".data),
   ("deadlines".data, "deadlines".data), ("deadline".data, "deadlines".data),
   ("assignments".data, "assignments".data), ("assignment".data, "assignments".data),
   ("projects".data, "projects".data), ("project".data, "projects".data),
   ("team".data, "team".data), ("group".data, "team".data),
   ("bug".data, "coding".data), ("debug".data, "coding".data),
   ("coding".data, "coding".data),
   ("grade".data, "grades".data), ("grades".data, "grades".data),
   ("gpa".data, "grades".data)]

/-- `map[s] ?? s`. -/
def normalizeStressor (s : Str) : Str :=
  ((canonMap.find? (fun p => p.1 == s)).map (·.2)).getD s

/-- The ordered mood rules of `detectMood`. -/
def moodRules : List (List Str × Str) :=
  [(["overwhelm".data, "overwhelmed".data, "stressed".data, "stress".data,
     "panic".data, "anxious".data, "worry".data, "worried".data,
     "pressure".data], "overwhelmed".data),
   (["tired".data, "exhausted".data, "fatigue".data, "drained".data,
     "sleepy".data, "insomnia".data], "tired".data),
   (["sad".data, "down".data, "low".data, "depressed".data,
     "hopeless".data], "low".data),
   (["angry".data, "frustrated".data, "annoyed".data,
     "irritated".data], "frustrated".data)]

def detectMoodAux : List (List Str × Str) → Str → Str
  | [], _ => "neutral".data
  | (keys, label) :: rest, lc =>
    if keys.any (fun k => includes k lc) then label else detectMoodAux rest lc

def detectMood (lc : Str) : Str := detectMoodAux moodRules lc

def crisisTerms : List Str :=
  ["suicide".data, "kill myself".data, "end my life".data, "self-harm".data,
   "self harm".data, "cut myself".data, "harm myself".data, "want to die".data,
   "no reason to live".data, "hopeless".data, "worthless".data]

def detectRisk (lc : Str) : List Str :=
  if (crisisTerms.filter (fun k => includes k lc)) ≠ [] then
    ["self_harm_terms_detected".data]
  else []

/-- `buildSummary`. -/
def buildSummary (raw : Str) (stressors : List Str) (mood : Str) : Str :=
  let base := if 140 < raw.length then dropBack (raw.take 140) ++ "…".data else raw
  if base = [] then "User shared feelings and context.".data
  else
    let label :=
      if stressors ≠ [] then
        "(".data ++ mood ++ "; ".data ++
          joinWith ", ".data (stressors.take 3) ++ ")".data
      else "(".data ++ mood ++ ")".data
    jsTrim (base ++ " ".data ++ label)

def baseSteps : List Str :=
  ["Break one task into a 10-minute starter step and do just that.".data,
   "Write a 3-item do-next list and highlight the first item only.".data,
   "Set a 15-minute timer, silence notifications, and begin.".data,
   "Do a 5-minute brain dump to clear your head, then choose one item.".data,
   "Stand up, drink water, and take 10 slow breaths to reset.".data,
   "Ask a classmate/teammate one specific question you’ve been stuck on.".data,
   "Plan a 20-minute review block tonight and a 20-minute block tomorrow.".data,
   "Move the toughest task to your peak-focus hour and calendar it.".data]

def sleepSteps : List Str :=
  ["Try a short wind-down: dim lights, no screens for 20 minutes, and breathe slowly.".data,
   "Prepare for sleep: list tomorrow’s top 1–2 tasks so your mind can let go.".data]

def examSteps : List Str :=
  ["Do one timed practice (10–15 minutes) on a single weak topic.".data,
   "Create a tiny formula/ideas sheet and review it aloud once.".data]

def teamSteps : List Str :=
  ["Post a quick update in your group chat with your next concrete step.".data,
   "Ask for a 10-minute sync to align on priorities and responsibilities.".data]

def tryNextPool : List Str :=
  ["Try this next:".data,
   "A small next move:".data,
   "One doable step:".data,
   "Consider trying:".data,
   "To get unstuck:".data]

def questionsPool : List Str :=
  ["What’s the smallest next step you can complete in the next 15 minutes?".data,
   "If you only did 10%, where would you start?".data,
   "Which single task would make tomorrow easier if you did it now?".data,
   "What would a good-enough first step look like?".data]

def commonSets : List (List Str) :=
  [["Thanks for sharing this—what you’re feeling is valid.".data,
    "I hear you, and it makes sense that you feel this way.".data,
    "You’re not alone in feeling like this, and it’s okay to slow down.".data],
   ["I appreciate you saying this—your feelings make sense.".data,
    "Given what you’ve described, it’s understandable to feel this way.".data,
    "It’s okay to feel this—let’s make things smaller and kinder.".data],
   ["Thanks for opening up—your reaction is valid.".data,
    "It’s reasonable to feel like this with everything going on.".data,
    "You’re not alone; many people feel this under similar pressure.".data]]

/-- `tailored[mood] ?? [[],[],[]]` (the `neutral` entry is itself empty). -/
def tailoredFor (mood : Str) : List (List Str) :=
  if mood = "overwhelmed".data then
    [["Feeling overloaded is understandable given everything on your plate.".data,
      "It’s natural to feel swamped when deadlines pile up.".data],
     ["When the list keeps growing, it’s normal to feel flooded.".data,
      "A busy week can make any task feel bigger than it is.".data],
     ["Overload can blur priorities; we’ll simplify it.".data,
      "Pressure stacks quickly—let’s take one step at a time.".data]]
  else if mood = "tired".data then
    [["When energy is low, it’s wise to keep steps small and gentle.".data,
      "Fatigue makes everything feel heavier—small resets can still help.".data],
     ["Low energy narrows focus; tiny steps count.".data,
      "Restful pauses can restore just enough momentum.".data],
     ["When you’re drained, the next step should be very small.".data,
      "Let’s respect your energy and take one light step.".data]]
  else if mood = "low".data then
    [["Low mood can shrink motivation—being kind to yourself matters here.".data,
      "When things feel heavy, tiny forward steps still count.".data],
     ["Motivation dips are human; gentleness helps you restart.".data,
      "Heavy feelings don’t erase your ability to take one step.".data],
     ["It’s okay to move slowly; small progress still matters.".data,
      "We’ll keep it simple and manageable.".data]]
  else if mood = "frustrated".data then
    [["Frustration shows you care about the outcome—let’s channel it into one next step.".data,
      "It’s okay to pause and reset before moving again.".data],
     ["That edge of frustration can be turned into focused action.".data,
      "A short reset often brings clarity.".data],
     ["Frustration is a signal you want it to work—let’s shape it into action.".data,
      "A brief pause can convert friction into momentum.".data]]
  else [[], [], []]

/-- The candidate array `commons ++ tails` of `chooseOpener`. -/
def openerArr (mood : Str) (setIdx : Nat) : List Str :=
  commonSets.getD (setIdx % commonSets.length) [] ++
    (tailoredFor mood).getD (setIdx % 3) []

/-- `arr[(seed >> 1) % Math.max(1, arr.length)]`: the index uses the signed
32-bit shift, so it can be negative; `arr[negative]` is `undefined`,
modelled as the empty (falsy) string. -/
def openerRaw (mood : Str) (seed : Nat) (setIdx : Nat) : Str :=
  if 0 ≤ jsRem (jsShr seed 1) (max 1 (openerArr mood setIdx).length) then
    (openerArr mood setIdx).getD
      (jsRem (jsShr seed 1) (max 1 (openerArr mood setIdx).length)).toNat []
  else []

/-- `chooseOpener`, with the `|| commons[0]` fallback for a falsy lookup. -/
def chooseOpener (mood : Str) (seed : Nat) (setIdx : Nat) : Str :=
  if openerRaw mood seed setIdx = [] then
    (commonSets.getD (setIdx % commonSets.length) []).getD 0 []
  else openerRaw mood seed setIdx

/-- The topic-conditional `bits` array of `chooseBody`. -/
def bodyBits (stressors : List Str) : List Str :=
  (if decide ("exams".data ∈ stressors) || decide ("deadlines".data ∈ stressors)
      || decide ("assignments".data ∈ stressors) then
    ["Given the pressure from exams and deadlines, keep today’s plan small and focused.".data,
     "With exams and deadlines ahead, narrowing to one doable step can restore momentum.".data]
   else []) ++
  (if decide ("sleep".data ∈ stressors) then
    ["Sleep struggles amplify stress; a short wind-down later can help your mind settle.".data]
   else []) ++
  (if decide ("team".data ∈ stressors) || decide ("projects".data ∈ stressors) then
    ["A quick alignment with teammates can reduce uncertainty and share the load.".data]
   else [])

/-- `bits` after the generic fallback push. -/
def bodyBitsAll (stressors : List Str) : List Str :=
  if bodyBits stressors = [] then
    ["Let’s reduce overwhelm by narrowing scope to one clear next move.".data,
     "Clarity grows when you shrink the target to a single small action.".data]
  else bodyBits stressors

/-- `chooseBody`.  `bits[(seed >> 2) % bits.length]` may index with a
negative number (signed 32-bit shift); the resulting `undefined` is then
concatenated into the body as the string "undefined". -/
def chooseBody (stressors : List Str) (_mood : Str) (seed : Nat) : Str :=
  if 0 ≤ jsRem (jsShr seed 2) (bodyBitsAll stressors).length then
    (bodyBitsAll stressors).getD
      (jsRem (jsShr seed 2) (bodyBitsAll stressors).length).toNat []
  else "undefined".data

def crisisLine : Str :=
  ("If you’re thinking about harming yourself or feel unsafe, please reach out " ++
   "to someone you trust now or local support (e.g., SOS 1767 in Singapore). " ++
   "You deserve immediate support.").data

/-- `formatList` (never called with an empty list by `unpack`). -/
def formatList (items : List Str) (conj : Str) : Str :=
  match items with
  | [] => []
  | [a] => a
  | [a, b] => a ++ [' '] ++ conj ++ [' '] ++ b
  | _ =>
    joinWith ", ".data items.dropLast ++ ", ".data ++ conj ++ [' '] ++
      (items.getLast?.getD [])

def nudgeS : Str :=
  "Could starting with just five minutes help you get moving?".data

/-- The maximum-length half of `enforceLength`: truncate, back off to the
preceding white space, terminate with a period. -/
def enforceMax (out : Str) (mx : Nat) : Str :=
  if mx < out.length then dropBack (out.take mx) ++ ['.'] else out

/-- `enforceLength`: re-collapse, append the fixed nudge when below the
minimum, then truncate at the maximum. -/
def enforceLength (s : Str) (mn mx : Nat) : Str :=
  if (jsTrim (collapseWs s)).length < mn then
    enforceMax (jsTrim (collapseWs s) ++ ' ' :: nudgeS) mx
  else enforceMax (jsTrim (collapseWs s)) mx

/-- `lengthTargetsFor`. -/
def lengthTargetsFor (raw : Str) : Nat × Nat :=
  if raw.length < 120 then (90, 200)
  else if raw.length < 300 then (140, 320)
  else (180, 420)

/-- `hasAny`. -/
def hasAny (hay : List Str) (needles : List Str) : Bool :=
  needles.any (fun n => decide (n ∈ hay))

/-- `rotated` (the rotation amount comes from a signed shift, hence `Int`). -/
def rotated (arr : List Str) (amt : Int) : List Str :=
  let n := max 1 arr.length
  let k := (jsRem (jsRem amt n + n) n).toNat
  arr.drop k ++ arr.take k

/-! ### The `mirrorFragment` regex

`/\b([A-Za-z]{3,}\s+){2,6}[A-Za-z]{3,}\b/` is compiled by hand.  A group
iteration consumes a maximal letter run of length ≥ 3 followed by a
white-space run (taking fewer letters always fails, since the next character
is again a letter); the final `[A-Za-z]{3,}\b` needs a maximal letter run of
length ≥ 3 whose follower is not a word character.  The greedy quantifier
takes `min 6 c` iterations for a chain of `c` units and backs off once when
the final atom fails, which always succeeds at the previous unit. -/

/-- Consume up to `k` chain units, returning `(letters, spaces)` pairs and
the remaining suffix. -/
def chainPairs : Nat → Str → List (Str × Str) × Str
  | 0, l => ([], l)
  | k + 1, l =>
    if 3 ≤ (l.takeWhile isLetterC).length then
      if 1 ≤ ((l.drop (l.takeWhile isLetterC).length).takeWhile isWsC).length then
        ((l.takeWhile isLetterC,
            (l.drop (l.takeWhile isLetterC).length).takeWhile isWsC) ::
          (chainPairs k ((l.drop (l.takeWhile isLetterC).length).drop
            ((l.drop (l.takeWhile isLetterC).length).takeWhile isWsC).length)).1,
         (chainPairs k ((l.drop (l.takeWhile isLetterC).length).drop
            ((l.drop (l.takeWhile isLetterC).length).takeWhile isWsC).length)).2)
      else ([], l)
    else ([], l)

/-- Can `[A-Za-z]{3,}\b` match here? -/
def finalOkB (l : Str) : Bool :=
  3 ≤ (l.takeWhile isLetterC).length &&
    (match (l.drop (l.takeWhile isLetterC).length).head? with
     | none => true
     | some c => !isWordC c)

def joinPairsFull (ps : List (Str × Str)) : Str :=
  (ps.map (fun p => p.1 ++ p.2)).flatten

/-- Attempt the pattern at the current position (a `\b` before a letter is
assumed checked by the caller). -/
def matchAt (l : Str) : Option Str :=
  if (chainPairs 7 l).1.length = 7 then
    some (joinPairsFull ((chainPairs 7 l).1.take 6) ++
      ((chainPairs 7 l).1.getD 6 ([], [])).1)
  else if finalOkB (chainPairs 7 l).2 ∧ 2 ≤ (chainPairs 7 l).1.length then
    some (joinPairsFull (chainPairs 7 l).1 ++
      (chainPairs 7 l).2.takeWhile isLetterC)
  else if 3 ≤ (chainPairs 7 l).1.length then
    some (joinPairsFull ((chainPairs 7 l).1.take ((chainPairs 7 l).1.length - 1)) ++
      ((chainPairs 7 l).1.getD ((chainPairs 7 l).1.length - 1) ([], [])).1)
  else none

/-- Left-to-right scan of match start positions; `prev` is the character
before the current suffix, for the leading `\b`. -/
def scanMatch : Option Char → Str → Option Str
  | _, [] => none
  | prev, c :: rest =>
    if (isLetterC c && match prev with | none => true | some p => !isWordC p) then
      match matchAt (c :: rest) with
      | some m => some m
      | none => scanMatch (some c) rest
    else scanMatch (some c) rest

/-- The punctuation stripped by `mirrorFragment`'s `replace`. -/
def isPunctM (c : Char) : Bool :=
  c = '.' ∨ c = ',' ∨ c = ';' ∨ c = ':' ∨ c = '!' ∨ c = '?' ∨ c = '(' ∨
  c = ')' ∨ c = '[' ∨ c = ']' ∨ c.toNat = 39 ∨ c = '"' ∨ c.toNat = 96

def aboutQuote (f : Str) : Str := "About “".data ++ f ++ "”… ".data

/-- `mirrorFragment`. -/
def mirrorFragment (text : Str) : Str :=
  match scanMatch none text with
  | none => []
  | some m0 =>
    if ((jsTrim m0).filter (fun c => !isPunctM c)).length < 10 then []
    else aboutQuote (((jsTrim m0).filter (fun c => !isPunctM c)).take 60)

/-! ### Long-input compression -/

/-- Split on `/(?<=[.!?])\s+/` (fuel-driven; one unit of fuel per consumed
character suffices). -/
def splitSentAux : Nat → Str → Str → List Str
  | 0, acc, rest => [acc.reverse ++ rest]
  | _ + 1, acc, [] => [acc.reverse]
  | fuel + 1, acc, c :: rest =>
    if (c = '.' ∨ c = '!' ∨ c = '?') ∧ rest.head?.any isWsC then
      (c :: acc).reverse :: splitSentAux fuel [] (rest.dropWhile isWsC)
    else splitSentAux fuel (c :: acc) rest

def splitSentences (s : Str) : List Str := splitSentAux (s.length + 1) [] s

/-- `s.split(/\s+/).filter(Boolean)` — the words of a sentence. -/
def wordsOf (s : Str) : List Str := (splitSp s).filter (fun w => w ≠ [])

/-- `/^[A-Za-z]{4,}$/`. -/
def isNounish (w : Str) : Bool := 4 ≤ w.length && w.all isLetterC

/-- `scoreSentence s = sqrt (#words) + 0.2 * #nounish`.  Comparisons of
these real values are decided exactly over the integers: with
`d = n₂ - n₁`, `5·√w₁ + n₁ ≤ 5·√w₂ + n₂` is resolved by squaring twice
(the word counts are small enough that the double-precision evaluation in
the source agrees with the exact real comparison). -/
def scoreLeB (w1 n1 w2 n2 : Nat) : Bool :=
  let d : Int := (n2 : Int) - (n1 : Int)
  if 0 ≤ d then
    let L : Int := 25 * (w1 : Int) - 25 * (w2 : Int) - d ^ 2
    if L ≤ 0 then true else L ^ 2 ≤ 100 * d ^ 2 * (w2 : Int)
  else
    let M : Int := 25 * (w2 : Int) - 25 * (w1 : Int) - d ^ 2
    if M < 0 then false else 100 * d ^ 2 * (w1 : Int) ≤ M ^ 2

def scoreLeS (a b : Str) : Bool :=
  scoreLeB (wordsOf a).length ((wordsOf a).filter isNounish).length
    (wordsOf b).length ((wordsOf b).filter isNounish).length

/-- Stable descending insertion (`sort((a,b) => b.score - a.score)` under the
ES2019 stability guarantee).  The element being inserted always precedes, in
the original list, everything already in the accumulator (the sort below
folds from the right), so on an equal score it must land in front: `x` is
placed before the first `y` whose score is less than or equal to its own. -/
def insDesc (x : Str) : List Str → List Str
  | [] => [x]
  | y :: ys => if scoreLeS y x then x :: y :: ys else y :: insDesc x ys

def sortByScoreDesc : List Str → List Str
  | [] => []
  | a :: l => insDesc a (sortByScoreDesc l)

/-- The joined top-2 sentences (`compressLongInput` before its final
truncation): take the first 800 characters, split into at most 5 sentences,
keep the best 2 by descending score, trim and join with a space. -/
def compressJoined (src : Str) : Str :=
  joinWith [' ']
    (((sortByScoreDesc ((splitSentences (src.take 800)).take 5)).take 2).map jsTrim)

/-- `compressLongInput`. -/
def compressLongInput (src : Str) : Str :=
  if 250 < (compressJoined src).length then
    dropBack ((compressJoined src).take 250) ++ "…".data
  else compressJoined src

/-! ### Style profiles and the composer -/

inductive Slot | opener | body | action | ask | crisis
deriving DecidableEq, Repr

structure StyleProfile where
  order : List Slot
  openerSet : Nat
  askSet : Nat
deriving DecidableEq, Repr

def STYLE_PROFILES : List StyleProfile :=
  [⟨[Slot.opener, Slot.body, Slot.action, Slot.ask, Slot.crisis], 0, 0⟩,
   ⟨[Slot.body, Slot.opener, Slot.action, Slot.ask, Slot.crisis], 1, 1⟩,
   ⟨[Slot.opener, Slot.action, Slot.body, Slot.ask, Slot.crisis], 2, 2⟩,
   ⟨[Slot.action, Slot.opener, Slot.body, Slot.ask, Slot.crisis], 1, 3⟩]

/-- `pick`: `arr[(seed + salt) % Math.max(1, arr.length)]`. -/
def pickP (seed : Nat) (arr : List Str) (salt : Nat) : Str :=
  arr.getD ((seed + salt) % max 1 arr.length) []

def rawZeroOf (text : Str) : Str := normalizeInput text

def rawOf (text : Str) : Str :=
  let r0 := rawZeroOf text
  if 500 < r0.length then compressLongInput r0 else r0

def lcOf (text : Str) : Str := lower (rawOf text)

def stressorsOf (text : Str) : List Str :=
  uniq ((stressorLex.filter (fun k => includes k (lcOf text))).map normalizeStressor)

def moodOf (text : Str) : Str := detectMood (lcOf text)

def riskOf (text : Str) : List Str := detectRisk (lcOf text)

def summaryOf (text : Str) : Str :=
  buildSummary (rawOf text) (stressorsOf text) (moodOf text)

def seedOf (text : Str) : Nat :=
  hash32 (if lcOf text = [] then "empty".data else lcOf text)

def suggestionsOf (text : Str) : List Str :=
  let seed := seedOf text
  let stressors := stressorsOf text
  let chosen :=
    (if hasAny stressors ["sleep".data] then [pickP seed sleepSteps 0] else []) ++
    (if hasAny stressors ["exam".data, "exams".data, "test".data, "tests".data]
     then [pickP seed examSteps 0] else []) ++
    (if hasAny stressors ["team".data, "group".data, "project".data,
       "projects".data, "presentation".data]
     then [pickP seed teamSteps 0] else []) ++
    [pickP seed baseSteps 0, pickP seed (rotated baseSteps (jsShr seed 3)) 0]
  (uniq chosen).take 3

/-- `pickProfile`: `(seed + day) % profiles.length`, where `day` is the
day-of-epoch index read from the clock. -/
def profileIdxOf (text : Str) (day : Nat) : Nat :=
  (seedOf text + day) % STYLE_PROFILES.length

def profileOf (text : Str) (day : Nat) : StyleProfile :=
  STYLE_PROFILES.getD (profileIdxOf text day) ⟨[], 0, 0⟩

def openerOf (text : Str) (day : Nat) : Str :=
  chooseOpener (moodOf text) (seedOf text) (profileOf text day).openerSet

def bodyOf (text : Str) : Str :=
  mirrorFragment (rawOf text) ++
    chooseBody (stressorsOf text) (moodOf text) (seedOf text)

def actionOf (text : Str) : Str :=
  if suggestionsOf text ≠ [] then
    pickP (seedOf text) tryNextPool 0 ++ [' '] ++
      formatList (suggestionsOf text) "and".data ++ ['.']
  else []

def askOf (text : Str) : Str := pickP (seedOf text) questionsPool 1

def crisisOf (text : Str) : Str := if riskOf text ≠ [] then crisisLine else []

def partFor (text : Str) (day : Nat) : Slot → Str
  | Slot.opener => openerOf text day
  | Slot.body => bodyOf text
  | Slot.action => actionOf text
  | Slot.ask => askOf text
  | Slot.crisis => crisisOf text

/-- The assembled first-attempt paragraph, before length enforcement. -/
def preGuidanceOf (text : Str) (day : Nat) : Str :=
  joinWith [' '] (((profileOf text day).order.map (partFor text day)).filter
    (fun p => p ≠ []))

def boundsOf (text : Str) : Nat × Nat := lengthTargetsFor (rawOf text)

/-- The first-attempt guidance. -/
def guidance1Of (text : Str) (day : Nat) : Str :=
  enforceLength (preGuidanceOf text day) (boundsOf text).1 (boundsOf text).2

/-- The next style profile in cyclic order, used by the regeneration path. -/
def altProfileOf (text : Str) (day : Nat) : StyleProfile :=
  STYLE_PROFILES.getD ((profileIdxOf text day + 1) % STYLE_PROFILES.length)
    ⟨[], 0, 0⟩

/-- The regeneration attempt's fragments: opener re-chosen with `seed + 7`,
question re-chosen with `(seed + 11) % 4`, the other slots unchanged. -/
def regenPartFor (text : Str) (day : Nat) : Slot → Str
  | Slot.opener =>
    chooseOpener (moodOf text) (seedOf text + 7) (altProfileOf text day).openerSet
  | Slot.ask => questionsPool.getD ((seedOf text + 11) % questionsPool.length) []
  | Slot.body => bodyOf text
  | Slot.action => actionOf text
  | Slot.crisis => crisisOf text

/-- The regeneration attempt's assembled paragraph, before the envelope is
re-applied. -/
def regenPreOf (text : Str) (day : Nat) : Str :=
  joinWith [' ']
    (((altProfileOf text day).order.map (regenPartFor text day)).filter
      (fun p => p ≠ []))

def regenOf (text : Str) (day : Nat) : Str :=
  enforceLength (regenPreOf text day) (boundsOf text).1 (boundsOf text).2

/-- Tokenisation for the anti-repetition guard: lower-case, replace every
character outside `[a-z0-9\s]` by a space, split on white space, keep tokens
longer than 2 characters, de-duplicate (the `Set`). -/
def toksOf (s : Str) : List Str :=
  uniq ((splitSp ((lower s).map (fun c =>
    if ('a' ≤ c ∧ c ≤ 'z') ∨ isDigitC c ∨ isWsC c then c else ' '))).filter
      (fun t => 2 < t.length))

/-- `jaccardSimilarity(tokens prev, tokens out) >= 0.85`, decided exactly:
`inter / max 1 union ≥ 17/20` (the ratios occurring here are far from the
rounding error of the double 0.85). -/
def jacGe85 (a b : List Str) : Bool :=
  17 * max 1 (uniq (a ++ b)).length ≤
    20 * (a.filter (fun x => decide (x ∈ b))).length

def isTooSimilarToRecent (hist : List Str) (out : Str) : Bool :=
  hist.any (fun prev => jacGe85 (toksOf prev) (toksOf out))

def LRU_SIZE : Nat := 10

def rememberOutput (out : Str) (hist : List Str) : List Str :=
  let h := out :: hist
  if LRU_SIZE < h.length then h.dropLast else h

structure SignalSet where
  mood : Str
  stressors : List Str
  risk_flags : List Str
deriving DecidableEq, Repr

structure UnpackResult where
  guidance : Str
  summary : Str
  signals : SignalSet
  suggestions : List Str
deriving DecidableEq, Repr

/-- The rules-based `unpack`, with the clock's day index and the
`LAST_OUTPUTS` history made explicit. -/
def unpack (text : Str) (day : Nat) (hist : List Str) :
    UnpackResult × List Str :=
  let g1 := guidance1Of text day
  let g := if isTooSimilarToRecent hist g1 then regenOf text day else g1
  (⟨g, summaryOf text,
    ⟨moodOf text, stressorsOf text, riskOf text⟩,
    suggestionsOf text⟩,
   rememberOutput g hist)

set_option maxHeartbeats 1600000 in
/-- Defining equation for `unpack`, stated once so later proofs can rewrite
with it instead of re-running definitional unfolding. -/
theorem unpack_eq (text : Str) (day : Nat) (hist : List Str) :
    unpack text day hist =
      (⟨(if isTooSimilarToRecent hist (guidance1Of text day) then regenOf text day
         else guidance1Of text day), summaryOf text,
        ⟨moodOf text, stressorsOf text, riskOf text⟩, suggestionsOf text⟩,
       rememberOutput (if isTooSimilarToRecent hist (guidance1Of text day)
         then regenOf text day else guidance1Of text day) hist) := rfl

/-! ### Generic helper lemmas -/

theorem mem_uniqAux (x : Str) : ∀ (l seen : List Str),
    x ∈ uniqAux seen l ↔ x ∈ l ∧ x ∉ seen := by
  intro l
  induction l with
  | nil => intro seen; simp [uniqAux]
  | cons a t ih =>
    intro seen
    by_cases ha : a ∈ seen
    · simp only [uniqAux, if_pos ha, ih]
      constructor
      · rintro ⟨hx, hns⟩; exact ⟨List.mem_cons_of_mem a hx, hns⟩
      · rintro ⟨hx, hns⟩
        rcases List.mem_cons.mp hx with rfl | hx
        · exact absurd ha hns
        · exact ⟨hx, hns⟩
    · simp only [uniqAux, if_neg ha]
      constructor
      · intro hx
        rcases List.mem_cons.mp hx with rfl | hx
        · exact ⟨List.mem_cons_self _ _, ha⟩
        · obtain ⟨h1, h2⟩ := (ih (a :: seen)).mp hx
          exact ⟨List.mem_cons_of_mem a h1,
            fun hs => h2 (List.mem_cons_of_mem a hs)⟩
      · rintro ⟨hx, hns⟩
        rcases List.mem_cons.mp hx with rfl | hx
        · exact List.mem_cons_self x _
        · by_cases hxa : x = a
          · exact hxa ▸ List.mem_cons_self a _
          · refine List.mem_cons_of_mem a ((ih (a :: seen)).mpr ⟨hx, ?_⟩)
            intro hs
            rcases List.mem_cons.mp hs with h | h
            · exact hxa h
            · exact hns h

theorem nodup_uniqAux : ∀ (l seen : List Str), (uniqAux seen l).Nodup := by
  intro l
  induction l with
  | nil => intro seen; simp [uniqAux]
  | cons a t ih =>
    intro seen
    by_cases ha : a ∈ seen
    · simpa [uniqAux, if_pos ha] using ih seen
    · have hna : a ∉ uniqAux (a :: seen) t := fun hmem =>
        ((mem_uniqAux a t (a :: seen)).mp hmem).2 (List.mem_cons_self a seen)
      simp only [uniqAux, if_neg ha]
      exact List.nodup_cons.mpr ⟨hna, ih (a :: seen)⟩

theorem mem_uniq (x : Str) (l : List Str) : x ∈ uniq l ↔ x ∈ l := by
  simp [uniq, mem_uniqAux]

theorem nodup_uniq (l : List Str) : (uniq l).Nodup := nodup_uniqAux l []

theorem uniq_ne_nil (l : List Str) (h : l ≠ []) : uniq l ≠ [] := by
  cases l with
  | nil => exact absurd rfl h
  | cons a t => simp [uniq, uniqAux]

theorem mem_joinWith_infix (sep : Str) (x : Str) :
    ∀ parts : List Str, x ∈ parts → x <:+: joinWith sep parts := by
  intro parts
  induction parts with
  | nil => intro h; cases h
  | cons a t ih =>
    intro hx
    rcases List.mem_cons.mp hx with rfl | hx
    · cases t with
      | nil => exact List.infix_refl x
      | cons b t' =>
        show x <:+: x ++ sep ++ joinWith sep (b :: t')
        exact ((x.prefix_append sep).trans (List.prefix_append _ _)).isInfix
    · cases t with
      | nil => cases hx
      | cons b t' =>
        have h1 : x <:+: joinWith sep (b :: t') := ih hx
        have h2 : joinWith sep (b :: t') <:+ a ++ sep ++ joinWith sep (b :: t') := by
          exact ⟨a ++ sep, by simp⟩
        exact h1.trans h2.isInfix

theorem take_three_ne_nil (l : List Str) (h : l ≠ []) : l.take 3 ≠ [] := by
  cases l with
  | nil => exact absurd rfl h
  | cons a t => simp

theorem filter_ne_nil_of_mem {p : Str → Bool} {l : List Str} {x : Str}
    (hx : x ∈ l) (hp : p x = true) : l.filter p ≠ [] := by
  intro hnil
  have : x ∈ l.filter p := List.mem_filter.mpr ⟨hx, hp⟩
  rw [hnil] at this
  cases this

/-! ### Claim C3: determinism of the rules-based composer -/

/-- C3.  For fixed text and day index, the extracted signals, the suggestion
list and the first-attempt fragment choices do not depend on the
anti-repetition history: they are computed by pure functions of the text and
the day, driven by the seed `hash32` of the lower-cased normalized text (or
"empty" for empty text).  Only the final choice between the first attempt
and the regeneration consults the history. -/
theorem claim_C3_determinism (text : Str) (day : Nat) (h1 h2 : List Str) :
    ((unpack text day h1).1.signals = (unpack text day h2).1.signals ∧
     (unpack text day h1).1.suggestions = (unpack text day h2).1.suggestions ∧
     (unpack text day h1).1.summary = (unpack text day h2).1.summary) ∧
    seedOf text = hash32 (if lcOf text = [] then "empty".data else lcOf text) ∧
    (∀ hist : List Str, (unpack text day hist).1.guidance =
      if isTooSimilarToRecent hist (guidance1Of text day)
      then regenOf text day else guidance1Of text day) ∧
    partFor text day Slot.opener = openerOf text day ∧
    partFor text day Slot.body = bodyOf text ∧
    partFor text day Slot.action = actionOf text ∧
    partFor text day Slot.ask = askOf text := by
  refine ⟨⟨?_, ?_, ?_⟩, rfl, ?_, rfl, rfl, rfl, rfl⟩
  · rw [unpack_eq, unpack_eq]
  · rw [unpack_eq, unpack_eq]
  · rw [unpack_eq, unpack_eq]
  · intro hist
    rw [unpack_eq]

/-! ### Claim C9: bound, distinctness and non-emptiness of suggestions -/

/-- C9.  The suggestions list has length at most 3, contains no duplicates,
and is never empty (two picks from the base pool are always appended before
de-duplication and truncation). -/
theorem claim_C9_suggestions (text : Str) (day : Nat) (hist : List Str) :
    (unpack text day hist).1.suggestions.length ≤ 3 ∧
    (unpack text day hist).1.suggestions.Nodup ∧
    (unpack text day hist).1.suggestions ≠ [] := by
  have hs : (unpack text day hist).1.suggestions = suggestionsOf text := by
    rw [unpack_eq]
  rw [hs]
  unfold suggestionsOf
  refine ⟨List.length_take_le 3 _, (nodup_uniq _).sublist (List.take_sublist 3 _), ?_⟩
  exact take_three_ne_nil _
    (List.ne_nil_of_mem ((mem_uniq (pickP (seedOf text) baseSteps 0) _).mpr (by simp)))

/-! ### White-space structure predicates

`RunsLe R l`: every white-space-free infix of `l` has length at most `R`
(no "word" longer than `R`).  `NoWW l`: no two adjacent white-space
characters.  `OnlySp l`: the only white-space character occurring is a plain
space.  These are what the length-envelope analysis needs about assembled
guidance strings. -/

def RunsLe (R : Nat) (l : Str) : Prop :=
  ∀ sub : Str, sub <:+: l → (∀ c ∈ sub, isWsC c = false) → sub.length ≤ R

def NoWW (l : Str) : Prop :=
  ∀ a b : Char, [a, b] <:+: l → isWsC a = false ∨ isWsC b = false

def OnlySp (l : Str) : Prop := ∀ c ∈ l, isWsC c = true → c = ' '

def HeadNW (l : Str) : Prop := ∀ c, l.head? = some c → isWsC c = false

def LastNW (l : Str) : Prop := ∀ c, l.getLast? = some c → isWsC c = false

def Nice (l : Str) : Prop := NoWW l ∧ OnlySp l ∧ HeadNW l ∧ LastNW l

/-- Linear-time checker for `RunsLe` (`cur` is the length of the current
white-space-free run). -/
def runsChk (R : Nat) : Nat → Str → Bool
  | cur, [] => cur ≤ R
  | cur, c :: l =>
    if isWsC c then (decide (cur ≤ R)) && runsChk R 0 l else runsChk R (cur + 1) l

def nwChk : Str → Bool
  | [] => true
  | [_] => true
  | a :: b :: l => (!(isWsC a && isWsC b)) && nwChk (b :: l)

def spChk (l : Str) : Bool := l.all (fun c => !isWsC c || c == ' ')

def edgeChk (l : Str) : Bool :=
  (match l.head? with | none => true | some c => !isWsC c) &&
  (match l.getLast? with | none => true | some c => !isWsC c)

def niceChk (l : Str) : Bool := nwChk l && spChk l && edgeChk l

theorem RunsLe_mono {R1 R2 : Nat} {l : Str} (h : R1 ≤ R2) (hr : RunsLe R1 l) :
    RunsLe R2 l := fun sub hs ha => le_trans (hr sub hs ha) h

theorem RunsLe_of_length {R : Nat} {l : Str} (h : l.length ≤ R) : RunsLe R l :=
  fun _ hs _ => le_trans hs.length_le h

theorem RunsLe_of_infix {R : Nat} {l l' : Str} (h : l' <:+: l) (hr : RunsLe R l) :
    RunsLe R l' := fun sub hs ha => hr sub (hs.trans h) ha

theorem NoWW_of_infix {l l' : Str} (h : l' <:+: l) (hw : NoWW l) : NoWW l' :=
  fun a b hs => hw a b (hs.trans h)

theorem OnlySp_of_subset {l l' : Str} (h : ∀ c ∈ l', c ∈ l) (hs : OnlySp l) :
    OnlySp l' := fun c hc hw => hs c (h c hc) hw

/-- Prefixes all of whose characters satisfy `p` are no longer than the
leading `takeWhile p`. -/
theorem prefix_length_le_takeWhile (p : Char → Bool) :
    ∀ (sub l : Str), sub <+: l → (∀ c ∈ sub, p c = true) →
      sub.length ≤ (l.takeWhile p).length := by
  intro sub
  induction sub with
  | nil => intro l _ _; simp
  | cons c s ih =>
    intro l hp hall
    cases l with
    | nil => simp at hp
    | cons d t =>
      obtain ⟨rfl, hst⟩ := List.cons_prefix_cons.mp hp
      have hc : p c = true := hall c (List.mem_cons_self _ _)
      rw [List.takeWhile_cons_of_pos hc]
      have := ih t hst (fun x hx => hall x (List.mem_cons_of_mem c hx))
      simpa using Nat.succ_le_succ this

theorem runsChk_sound (R : Nat) :
    ∀ (l : Str) (cur : Nat), runsChk R cur l = true →
      cur + (l.takeWhile (fun c => !isWsC c)).length ≤ R ∧ RunsLe R l := by
  intro l
  induction l with
  | nil =>
    intro cur h
    refine ⟨by simpa [runsChk] using h, ?_⟩
    intro sub hs _
    have : sub = [] := List.eq_nil_of_sublist_nil hs.sublist
    simp [this]
  | cons c t ih =>
    intro cur h
    by_cases hw : isWsC c = true
    · have h' : cur ≤ R ∧ runsChk R 0 t = true := by
        simpa [runsChk, hw] using h
      obtain ⟨ht1, ht2⟩ := ih 0 h'.2
      constructor
      · simpa [List.takeWhile_cons_of_neg, hw] using h'.1
      · intro sub hs hall
        rcases List.infix_cons_iff.mp hs with hp | hi
        · cases sub with
          | nil => exact Nat.zero_le R
          | cons x s =>
            obtain ⟨rfl, _⟩ := List.cons_prefix_cons.mp hp
            exact absurd hw (by simp [hall x (List.mem_cons_self _ _)])
        · exact ht2 sub hi hall
    · have hwb : isWsC c = false := by simpa using hw
      have h' : runsChk R (cur + 1) t = true := by
        simpa [runsChk, hwb] using h
      obtain ⟨ht1, ht2⟩ := ih (cur + 1) h'
      constructor
      · rw [List.takeWhile_cons_of_pos (by simp [hwb])]
        simp only [List.length_cons]
        omega
      · intro sub hs hall
        rcases List.infix_cons_iff.mp hs with hp | hi
        · cases sub with
          | nil => exact Nat.zero_le R
          | cons x s =>
            obtain ⟨rfl, hst⟩ := List.cons_prefix_cons.mp hp
            have hsl : s.length ≤ (t.takeWhile (fun c => !isWsC c)).length :=
              prefix_length_le_takeWhile _ s t hst
                (fun y hy => by simp [hall y (List.mem_cons_of_mem x hy)])
            simp only [List.length_cons]
            omega
        · exact ht2 sub hi hall

theorem RunsLe_of_chk {R : Nat} {l : Str} (h : runsChk R 0 l = true) : RunsLe R l :=
  (runsChk_sound R l 0 h).2

theorem nwChk_sound : ∀ l : Str, nwChk l = true → NoWW l := by
  intro l
  induction l with
  | nil =>
    intro _ a b hinf
    have := hinf.length_le
    simp at this
  | cons c t ih =>
    intro hchk a b hinf
    cases t with
    | nil =>
      have := hinf.length_le
      simp at this
    | cons d t' =>
      have h1 : (!(isWsC c && isWsC d)) = true ∧ nwChk (d :: t') = true := by
        simpa [nwChk, Bool.and_eq_true] using hchk
      rcases List.infix_cons_iff.mp hinf with hp | hi
      · obtain ⟨rfl, hb⟩ := List.cons_prefix_cons.mp hp
        obtain ⟨rfl, _⟩ := List.cons_prefix_cons.mp hb
        have := h1.1
        cases hA : isWsC a <;> cases hB : isWsC b <;> simp_all
      · exact ih h1.2 a b hi

theorem spChk_sound {l : Str} (h : spChk l = true) : OnlySp l := by
  intro c hc hw
  have := List.all_eq_true.mp h c hc
  rcases Bool.or_eq_true _ _ |>.mp this with h1 | h2
  · simp [hw] at h1
  · exact eq_of_beq h2

theorem niceChk_sound {l : Str} (h : niceChk l = true) : Nice l := by
  unfold niceChk edgeChk at h
  simp only [Bool.and_eq_true] at h
  obtain ⟨⟨hnw, hsp⟩, hhead, hlast⟩ := h
  refine ⟨nwChk_sound l hnw, spChk_sound hsp, ?_, ?_⟩
  · intro c hc
    rw [hc] at hhead
    simpa using hhead
  · intro c hc
    rw [hc] at hlast
    simpa using hlast

/-- Splitting a prefix of an append. -/
theorem prefix_append_split :
    ∀ (x : Str) {s y : Str}, s <+: x ++ y →
      s <+: x ∨ ∃ p, s = x ++ p ∧ p <+: y := by
  intro x
  induction x with
  | nil =>
    intro s y h
    exact Or.inr ⟨s, by simp, by simpa using h⟩
  | cons c x' ih =>
    intro s y h
    cases s with
    | nil => exact Or.inl (List.nil_prefix)
    | cons d s' =>
      obtain ⟨rfl, hst⟩ := List.cons_prefix_cons.mp h
      rcases ih hst with h1 | ⟨p, rfl, hp⟩
      · exact Or.inl (List.cons_prefix_cons.mpr ⟨rfl, h1⟩)
      · exact Or.inr ⟨p, by simp, hp⟩

/-- Splitting an infix of an append: it lies in the left part, in the right
part, or straddles the boundary. -/
theorem infix_append_split :
    ∀ (a : Str) {sub b : Str}, sub <:+: a ++ b →
      sub <:+: a ∨ sub <:+: b ∨
      ∃ s1 s2, sub = s1 ++ s2 ∧ s1 ≠ [] ∧ s2 ≠ [] ∧ s1 <:+ a ∧ s2 <+: b := by
  intro a
  induction a with
  | nil =>
    intro sub b h
    exact Or.inr (Or.inl (by simpa using h))
  | cons c a' ih =>
    intro sub b h
    rcases List.infix_cons_iff.mp (by simpa using h) with hp | hi
    · cases sub with
      | nil => exact Or.inl List.nil_infix
      | cons d s' =>
        obtain ⟨rfl, hst⟩ := List.cons_prefix_cons.mp hp
        rcases prefix_append_split a' hst with h1 | ⟨p, rfl, hp2⟩
        · exact Or.inl (List.cons_prefix_cons.mpr ⟨rfl, h1⟩).isInfix
        · by_cases hp0 : p = []
          · subst hp0
            exact Or.inl (by simpa using List.infix_refl (d :: a'))
          · exact Or.inr (Or.inr ⟨d :: a', p, by simp, by simp, hp0,
              List.suffix_refl _, hp2⟩)
    · rcases ih hi with h1 | h2 | ⟨s1, s2, rfl, hn1, hn2, hs1, hs2⟩
      · exact Or.inl (h1.trans (List.infix_cons_iff.mpr (Or.inr (List.infix_refl a'))))
      · exact Or.inr (Or.inl h2)
      · refine Or.inr (Or.inr ⟨s1, s2, rfl, hn1, hn2, ?_, hs2⟩)
        obtain ⟨u, rfl⟩ := hs1
        exact ⟨c :: u, by simp⟩

theorem singleton_suffix_getLast {x : Char} {l : Str} (h : [x] <:+ l) :
    l.getLast? = some x := by
  obtain ⟨u, rfl⟩ := h
  simp

theorem singleton_prefix_head {x : Char} {l : Str} (h : [x] <+: l) :
    l.head? = some x := by
  obtain ⟨u, rfl⟩ := h
  simp

/-- Appending with a space separator keeps the run bound. -/
theorem RunsLe_append_sep {R : Nat} {a b : Str} (ha : RunsLe R a)
    (hb : RunsLe R b) : RunsLe R (a ++ ' ' :: b) := by
  intro sub hs hall
  rcases infix_append_split a hs with h1 | h2 | ⟨s1, s2, rfl, hn1, hn2, hs1, hs2⟩
  · exact ha sub h1 hall
  · rcases List.infix_cons_iff.mp h2 with hp | hi
    · cases sub with
      | nil => exact Nat.zero_le R
      | cons d s' =>
        obtain ⟨hd, _⟩ := List.cons_prefix_cons.mp hp
        have hmem := hall d (List.mem_cons_self _ _)
        rw [hd] at hmem
        simp [isWsC] at hmem
    · exact hb sub hi hall
  · exfalso
    cases s2 with
    | nil => exact hn2 rfl
    | cons d s' =>
      obtain ⟨hd, _⟩ := List.cons_prefix_cons.mp hs2
      have hmem := hall d (by simp)
      rw [hd] at hmem
      simp [isWsC] at hmem

/-- Plain appending adds the run bounds. -/
theorem RunsLe_append_add {R1 R2 : Nat} {a b : Str} (ha : RunsLe R1 a)
    (hb : RunsLe R2 b) : RunsLe (R1 + R2) (a ++ b) := by
  intro sub hs hall
  rcases infix_append_split a hs with h1 | h2 | ⟨s1, s2, rfl, _, _, hs1, hs2⟩
  · exact le_trans (ha sub h1 hall) (Nat.le_add_right _ _)
  · exact le_trans (hb sub h2 hall) (Nat.le_add_left _ _)
  · rw [List.length_append]
    have h1 : s1.length ≤ R1 :=
      ha s1 hs1.isInfix (fun c hc => hall c (List.mem_append_left _ hc))
    have h2 : s2.length ≤ R2 :=
      hb s2 hs2.isInfix (fun c hc => hall c (List.mem_append_right _ hc))
    omega

/-- Appending preserves `NoWW` when the boundary characters are not both
white space. -/
theorem NoWW_append {a b : Str} (ha : NoWW a) (hb : NoWW b)
    (hedge : ∀ x y, a.getLast? = some x → b.head? = some y →
      isWsC x = false ∨ isWsC y = false) : NoWW (a ++ b) := by
  intro x y hs
  rcases infix_append_split a hs with h1 | h2 | ⟨s1, s2, heq, hn1, hn2, hs1, hs2⟩
  · exact ha x y h1
  · exact hb x y h2
  · have hlen : s1.length + s2.length = 2 := by
      have := congrArg List.length heq
      simpa using this.symm
    have h1 : s1.length = 1 := by
      cases s1 with
      | nil => exact absurd rfl hn1
      | cons u s1' =>
        cases s2 with
        | nil => exact absurd rfl hn2
        | cons v s2' =>
          simp only [List.length_cons] at hlen ⊢
          omega
    have h2 : s2.length = 1 := by omega
    have hx : s1 = [x] := by
      cases s1 with
      | nil => simp at h1
      | cons u s1' =>
        have : s1' = [] := by simpa using h1
        subst this
        have : u = x := by
          have := congrArg (fun l => l.head?) heq
          simpa using this.symm
        simp [this]
    have hy : s2 = [y] := by
      rw [hx] at heq
      simpa using heq.symm
    exact hedge x y (singleton_suffix_getLast (hx ▸ hs1))
      (singleton_prefix_head (hy ▸ hs2))

/-! ### Properties of the collapse/trim normalisation -/

theorem head_of_dropWhile_eq_cons {p : Char → Bool} :
    ∀ {l r : Str} {c : Char}, l.dropWhile p = c :: r → p c = false := by
  intro l
  induction l with
  | nil => intro r c h; simp [List.dropWhile] at h
  | cons d t ih =>
    intro r c h
    by_cases hd : p d = true
    · rw [List.dropWhile_cons_of_pos hd] at h
      exact ih h
    · rw [List.dropWhile_cons_of_neg hd] at h
      cases h
      simpa using hd

theorem NoWW_cons {x : Char} {xs : Str} (hxs : NoWW xs)
    (hhd : ∀ d, xs.head? = some d → isWsC x = false ∨ isWsC d = false) :
    NoWW (x :: xs) := by
  intro a b hinf
  rcases List.infix_cons_iff.mp hinf with hp | hi
  · obtain ⟨rfl, hb⟩ := List.cons_prefix_cons.mp hp
    cases xs with
    | nil => simp at hb
    | cons d t =>
      obtain ⟨rfl, _⟩ := List.cons_prefix_cons.mp hb
      exact hhd b rfl
  · exact hxs a b hi

theorem headNW_collapseAux_true : ∀ t : Str, HeadNW (collapseAux true t) := by
  intro t
  induction t with
  | nil => intro c h; simp [collapseAux] at h
  | cons d t' ih =>
    intro c h
    by_cases hd : isWsC d = true
    · rw [show collapseAux true (d :: t') = collapseAux true t' by
        simp [collapseAux, hd]] at h
      exact ih c h
    · rw [show collapseAux true (d :: t') = d :: collapseAux false t' by
        simp [collapseAux, hd]] at h
      simp at h
      rw [← h]
      simpa using hd

theorem NoWW_collapseAux : ∀ (l : Str) (b : Bool), NoWW (collapseAux b l) := by
  intro l
  induction l with
  | nil =>
    intro b a b' h
    have := h.length_le
    simp [collapseAux] at this
  | cons c t ih =>
    intro b
    by_cases hc : isWsC c = true
    · cases b with
      | true => simpa [collapseAux, hc] using ih true
      | false =>
        rw [show collapseAux false (c :: t) = ' ' :: collapseAux true t by
          simp [collapseAux, hc]]
        refine NoWW_cons (ih true) ?_
        intro d hd
        exact Or.inr (headNW_collapseAux_true t d hd)
    · rw [show collapseAux b (c :: t) = c :: collapseAux false t by
        simp [collapseAux, hc]]
      refine NoWW_cons (ih false) ?_
      intro d _
      exact Or.inl (by simpa using hc)

theorem trimStart_suffix (l : Str) : trimStart l <:+ l := List.dropWhile_suffix _

theorem trimEnd_isPref (l : Str) : trimEnd l <+: l := by
  unfold trimEnd
  have h := List.dropWhile_suffix (l := l.reverse) isWsC
  rw [← List.reverse_prefix] at h
  simpa using h

theorem jsTrim_within (l : Str) : jsTrim l <:+: l :=
  (trimEnd_isPref (trimStart l)).isInfix.trans (trimStart_suffix l).isInfix

theorem NoWW_out0 (s : Str) : NoWW (jsTrim (collapseWs s)) :=
  NoWW_of_infix (jsTrim_within _) (NoWW_collapseAux s false)

/-- A white-space-free prefix of a collapse (with a non-white flag) is a
prefix of the original list. -/
theorem nonws_prefix_collapse :
    ∀ (t s' : Str), s' <+: collapseAux false t →
      (∀ c ∈ s', isWsC c = false) → s' <+: t := by
  intro t
  induction t with
  | nil =>
    intro s' hp _
    simpa [collapseAux] using hp
  | cons d t' ih =>
    intro s' hp hall
    by_cases hd : isWsC d = true
    · rw [show collapseAux false (d :: t') = ' ' :: collapseAux true t' by
        simp [collapseAux, hd]] at hp
      cases s' with
      | nil => exact List.nil_prefix
      | cons x s'' =>
        obtain ⟨hx, _⟩ := List.cons_prefix_cons.mp hp
        have := hall x (List.mem_cons_self _ _)
        rw [hx] at this
        simp [isWsC] at this
    · rw [show collapseAux false (d :: t') = d :: collapseAux false t' by
        simp [collapseAux, hd]] at hp
      cases s' with
      | nil => exact List.nil_prefix
      | cons x s'' =>
        obtain ⟨rfl, hs⟩ := List.cons_prefix_cons.mp hp
        exact List.cons_prefix_cons.mpr
          ⟨rfl, ih s'' hs (fun c hc => hall c (List.mem_cons_of_mem x hc))⟩

/-- Every white-space-free infix of a collapse is an infix of the original
list; hence collapsing preserves `RunsLe`. -/
theorem nonws_infix_collapse :
    ∀ (l : Str) (b : Bool) (sub : Str), sub <:+: collapseAux b l →
      (∀ c ∈ sub, isWsC c = false) → sub <:+: l := by
  intro l
  induction l with
  | nil =>
    intro b sub h _
    simpa [collapseAux] using h
  | cons c t ih =>
    intro b sub h hall
    by_cases hc : isWsC c = true
    · have hcons : sub <:+: t → sub <:+: c :: t := fun hx =>
        hx.trans (List.infix_cons_iff.mpr (Or.inr (List.infix_refl t)))
      cases b with
      | true =>
        rw [show collapseAux true (c :: t) = collapseAux true t by
          simp [collapseAux, hc]] at h
        exact hcons (ih true sub h hall)
      | false =>
        rw [show collapseAux false (c :: t) = ' ' :: collapseAux true t by
          simp [collapseAux, hc]] at h
        rcases List.infix_cons_iff.mp h with hp | hi
        · cases sub with
          | nil => exact List.nil_infix
          | cons x s' =>
            obtain ⟨hx, _⟩ := List.cons_prefix_cons.mp hp
            have := hall x (List.mem_cons_self _ _)
            rw [hx] at this
            simp [isWsC] at this
        · exact hcons (ih true sub hi hall)
    · rw [show collapseAux b (c :: t) = c :: collapseAux false t by
        simp [collapseAux, hc]] at h
      rcases List.infix_cons_iff.mp h with hp | hi
      · cases sub with
        | nil => exact List.nil_infix
        | cons x s' =>
          obtain ⟨rfl, hs⟩ := List.cons_prefix_cons.mp hp
          exact (List.cons_prefix_cons.mpr ⟨rfl,
            nonws_prefix_collapse t s' hs
              (fun d hd => hall d (List.mem_cons_of_mem x hd))⟩).isInfix
      · exact (ih false sub hi hall).trans
          (List.infix_cons_iff.mpr (Or.inr (List.infix_refl t)))

theorem RunsLe_out0 {R : Nat} {s : Str} (h : RunsLe R s) :
    RunsLe R (jsTrim (collapseWs s)) := by
  intro sub hs hall
  exact h sub
    (nonws_infix_collapse s false sub (hs.trans (jsTrim_within _)) hall) hall

/-- The non-white-space character count, which collapsing and trimming never
decrease below. -/
def nwCount (l : Str) : Nat := l.countP (fun c => !isWsC c)

theorem nwCount_le_length (l : Str) : nwCount l ≤ l.length :=
  List.countP_le_length _

theorem nwCount_collapseAux : ∀ (l : Str) (b : Bool),
    nwCount (collapseAux b l) = nwCount l := by
  intro l
  induction l with
  | nil => intro b; simp [collapseAux]
  | cons c t ih =>
    intro b
    by_cases hc : isWsC c = true
    · have hns : nwCount (c :: t) = nwCount t := by
        simp [nwCount, List.countP_cons, hc]
      cases b with
      | true =>
        rw [show collapseAux true (c :: t) = collapseAux true t by
          simp [collapseAux, hc], hns]
        exact ih true
      | false =>
        rw [show collapseAux false (c :: t) = ' ' :: collapseAux true t by
          simp [collapseAux, hc], hns]
        have : nwCount (' ' :: collapseAux true t) = nwCount (collapseAux true t) := by
          simp [nwCount, List.countP_cons, isWsC]
        rw [this]
        exact ih true
    · rw [show collapseAux b (c :: t) = c :: collapseAux false t by
        simp [collapseAux, hc]]
      have h1 := ih false
      simp only [nwCount, List.countP_cons] at h1 ⊢
      omega

theorem nwCount_dropWhile_ws (l : Str) :
    nwCount (l.dropWhile isWsC) = nwCount l := by
  induction l with
  | nil => simp [List.dropWhile]
  | cons c t ih =>
    by_cases hc : isWsC c = true
    · rw [List.dropWhile_cons_of_pos hc]
      rw [ih]
      simp [nwCount, List.countP_cons, hc]
    · rw [List.dropWhile_cons_of_neg (by simpa using hc)]

theorem nwCount_reverse (l : Str) : nwCount l.reverse = nwCount l := by
  simp [nwCount]

theorem nwCount_jsTrim (l : Str) : nwCount (jsTrim l) = nwCount l := by
  unfold jsTrim trimEnd trimStart
  rw [nwCount_reverse, nwCount_dropWhile_ws, nwCount_reverse, nwCount_dropWhile_ws]

theorem nwCount_le_out0 (s : Str) : nwCount s ≤ (jsTrim (collapseWs s)).length := by
  calc nwCount s = nwCount (collapseWs s) := (nwCount_collapseAux s false).symm
    _ = nwCount (jsTrim (collapseWs s)) := (nwCount_jsTrim _).symm
    _ ≤ _ := nwCount_le_length _

theorem lastNW_out0 (s : Str) : LastNW (jsTrim (collapseWs s)) := by
  intro c hc
  unfold jsTrim trimEnd at hc
  rw [List.getLast?_reverse] at hc
  cases hY : (trimStart (collapseWs s)).reverse.dropWhile isWsC with
  | nil => rw [hY] at hc; cases hc
  | cons d r =>
    rw [hY] at hc
    simp only [List.head?_cons, Option.some.injEq] at hc
    rw [← hc]
    exact head_of_dropWhile_eq_cons hY

/-- Lower and upper bounds on the length of the truncation-with-backoff. -/
theorem dropBack_take_bounds {out : Str} {mx R : Nat}
    (hR : RunsLe R out) (hww : NoWW out) (hlen : mx < out.length) :
    mx ≤ (dropBack (out.take mx)).length + R + 1 ∧
    (dropBack (out.take mx)).length ≤ mx := by
  have htl : (out.take mx).length = mx := by
    simp only [List.length_take]
    omega
  have htpre : out.take mx <+: out := List.take_prefix mx out
  unfold dropBack
  cases hr : (out.take mx).reverse.dropWhile (fun c => !isWsC c) with
  | nil =>
    show mx ≤ (out.take mx).length + R + 1 ∧ (out.take mx).length ≤ mx
    omega
  | cons c r' =>
    have hsplit := List.takeWhile_append_dropWhile (fun c => !isWsC c)
      (out.take mx).reverse
    rw [hr] at hsplit
    have hlen1 : ((out.take mx).reverse.takeWhile (fun c => !isWsC c)).length +
        (r'.length + 1) = mx := by
      have := congrArg List.length hsplit
      simp only [List.length_append, List.length_cons, List.length_reverse] at this
      omega
    have hd1 : ((out.take mx).reverse.takeWhile (fun c => !isWsC c)).length ≤ R := by
      have hsfx : ((out.take mx).reverse.takeWhile (fun c => !isWsC c)).reverse <:+
          out.take mx := by
        rw [← List.reverse_prefix]
        simpa using List.takeWhile_prefix (l := (out.take mx).reverse)
          (fun c => !isWsC c)
      have hnos : ∀ x ∈ ((out.take mx).reverse.takeWhile
          (fun c => !isWsC c)).reverse, isWsC x = false := by
        intro x hx
        rw [List.mem_reverse] at hx
        simpa using List.mem_takeWhile_imp hx
      have := hR _ (hsfx.isInfix.trans htpre.isInfix) hnos
      simpa using this
    have hcw : isWsC c = true := by
      have := head_of_dropWhile_eq_cons hr
      simpa using this
    have hr'h : ∀ d r'', r' = d :: r'' → isWsC d = false := by
      intro d r'' hd
      have hinf1 : [c, d] <:+: (out.take mx).reverse := by
        have h1 : [c, d] <+: c :: r' := by
          rw [hd]
          exact List.cons_prefix_cons.mpr ⟨rfl,
            List.cons_prefix_cons.mpr ⟨rfl, List.nil_prefix⟩⟩
        have h2 : (c :: r') <:+ (out.take mx).reverse := by
          rw [← hr]
          exact List.dropWhile_suffix _
        exact h1.isInfix.trans h2.isInfix
      have hinf2 : [d, c] <:+: out.take mx := by
        have := (@List.reverse_infix _ [d, c] (out.take mx)).mp
        exact this (by simpa using hinf1)
      have hnoww := hww d c (hinf2.trans htpre.isInfix)
      rcases hnoww with h | h
      · exact h
      · rw [hcw] at h; cases h
    have hdrop : (c :: r').dropWhile isWsC = r' := by
      rw [List.dropWhile_cons_of_pos hcw]
      cases r' with
      | nil => rfl
      | cons d r'' =>
        rw [List.dropWhile_cons_of_neg (by simp [hr'h d r'' rfl])]
    show mx ≤ ((c :: r').dropWhile isWsC).reverse.length + R + 1 ∧
      ((c :: r').dropWhile isWsC).reverse.length ≤ mx
    rw [hdrop, List.length_reverse]
    omega

theorem nudge_nice : Nice nudgeS := niceChk_sound (by decide)

/-- Bounds for the truncation half of `enforceLength`. -/
theorem enforceMax_bounds (out : Str) (mx R mn : Nat)
    (hR : RunsLe R out) (hww : NoWW out)
    (hmn : mn ≤ out.length) (hgap : mn + R + 2 ≤ mx) :
    mn ≤ (enforceMax out mx).length ∧ (enforceMax out mx).length ≤ mx + 1 := by
  unfold enforceMax
  by_cases h : mx < out.length
  · rw [if_pos h]
    obtain ⟨h1, h2⟩ := dropBack_take_bounds hR hww h
    rw [List.length_append]
    simp only [List.length_cons, List.length_nil]
    omega
  · rw [if_neg h]
    omega

/-- The central length-envelope lemma: `enforceLength` lands in
`[mn, mx + 1]` provided the input's white-space-free runs are bounded by
`R`, its non-white-space character count reaches `mn - 1 - |nudge|`, and the
envelope gap exceeds `R + 2`. -/
theorem enforce_bounds (s : Str) (mn mx R : Nat)
    (hR : RunsLe R s)
    (hnud : RunsLe R nudgeS)
    (hcnt : mn ≤ nwCount s + 1 + nudgeS.length)
    (hgap : mn + R + 2 ≤ mx) :
    mn ≤ (enforceLength s mn mx).length ∧
    (enforceLength s mn mx).length ≤ mx + 1 := by
  have hout0R : RunsLe R (jsTrim (collapseWs s)) := RunsLe_out0 hR
  have hout0W : NoWW (jsTrim (collapseWs s)) := NoWW_out0 s
  have hout0L : nwCount s ≤ (jsTrim (collapseWs s)).length := nwCount_le_out0 s
  unfold enforceLength
  by_cases hmin : (jsTrim (collapseWs s)).length < mn
  · rw [if_pos hmin]
    have hR1 : RunsLe R (jsTrim (collapseWs s) ++ ' ' :: nudgeS) :=
      RunsLe_append_sep hout0R hnud
    have hW1 : NoWW (jsTrim (collapseWs s) ++ ' ' :: nudgeS) := by
      refine NoWW_append hout0W ?_ ?_
      · refine NoWW_cons nudge_nice.1 ?_
        intro d hd
        exact Or.inr (nudge_nice.2.2.1 d hd)
      · intro x y hx _
        exact Or.inl (lastNW_out0 s x hx)
    have hlen1 : mn ≤ (jsTrim (collapseWs s) ++ ' ' :: nudgeS).length := by
      rw [List.length_append]
      simp only [List.length_cons]
      omega
    exact enforceMax_bounds _ mx R mn hR1 hW1 hlen1 hgap
  · rw [if_neg hmin]
    exact enforceMax_bounds _ mx R mn hout0R hout0W (by omega) hgap

/-! ### Run and count bounds for the assembled fragments -/

/-- Decidable bundle: runs bounded by `R` and at least `m` non-white
characters. -/
def partOK (R m : Nat) (x : Str) : Bool :=
  runsChk R 0 x && decide (m ≤ nwCount x)

theorem partOK_spec {R m : Nat} {x : Str} (h : partOK R m x = true) :
    RunsLe R x ∧ m ≤ nwCount x := by
  simp only [partOK, Bool.and_eq_true, decide_eq_true_eq] at h
  exact ⟨RunsLe_of_chk h.1, h.2⟩

theorem getD_mem {α : Type} {l : List α} {n : Nat} {d : α} (h : n < l.length) :
    l.getD n d ∈ l := by
  induction l generalizing n with
  | nil => simp at h
  | cons a t ih =>
    cases n with
    | zero => simp [List.getD]
    | succ k => exact List.mem_cons_of_mem a (ih (by simpa using h))

theorem pickP_mem {seed salt : Nat} {arr : List Str} (h : arr ≠ []) :
    pickP seed arr salt ∈ arr := by
  unfold pickP
  have hl : 0 < arr.length := List.length_pos.mpr h
  have hidx : (seed + salt) % max 1 arr.length < arr.length := by
    rw [Nat.max_eq_right hl]
    exact Nat.mod_lt _ hl
  exact getD_mem hidx

theorem rotated_subset {arr : List Str} {amt : Int} :
    ∀ x ∈ rotated arr amt, x ∈ arr := by
  intro x hx
  unfold rotated at hx
  rcases List.mem_append.mp hx with h | h
  · exact List.mem_of_mem_drop h
  · exact List.mem_of_mem_take h

theorem tailoredFor_length (mood : Str) : (tailoredFor mood).length = 3 := by
  unfold tailoredFor
  split_ifs <;> rfl

theorem commonSets_getD_mem (set : Nat) :
    commonSets.getD (set % commonSets.length) [] ∈ commonSets := by
  apply getD_mem
  exact Nat.mod_lt set (by decide)

theorem chooseOpener_cases (mood : Str) (seed set : Nat) :
    (∃ cs ∈ commonSets, chooseOpener mood seed set ∈ cs) ∨
    (∃ ts ∈ tailoredFor mood, chooseOpener mood seed set ∈ ts) := by
  have hcm := commonSets_getD_mem set
  have hcne : commonSets.getD (set % commonSets.length) [] ≠ [] :=
    (by decide : ∀ cs ∈ commonSets, cs ≠ []) _ hcm
  unfold chooseOpener
  by_cases hr : openerRaw mood seed set = []
  · rw [if_pos hr]
    exact Or.inl ⟨_, hcm, getD_mem (List.length_pos.mpr hcne)⟩
  · rw [if_neg hr]
    unfold openerRaw at hr ⊢
    by_cases hge : 0 ≤ jsRem (jsShr seed 1) (max 1 (openerArr mood set).length)
    · rw [if_pos hge] at hr ⊢
      by_cases hlt : (jsRem (jsShr seed 1)
          (max 1 (openerArr mood set).length)).toNat < (openerArr mood set).length
      · have hmem := getD_mem (d := ([] : Str)) hlt
        unfold openerArr at hmem
        rcases List.mem_append.mp hmem with h | h
        · exact Or.inl ⟨_, hcm, h⟩
        · exact Or.inr ⟨_, getD_mem (by rw [tailoredFor_length]; omega), h⟩
      · exact absurd (List.getD_eq_default _ _ (by omega)) hr
    · rw [if_neg hge] at hr
      exact absurd rfl hr

theorem tailored_pool_ok (mood : Str) :
    ∀ ts ∈ tailoredFor mood, ∀ x ∈ ts, partOK 16 30 x = true := by
  unfold tailoredFor
  split_ifs <;> decide

theorem opener_ok (mood : Str) (seed set : Nat) :
    RunsLe 86 (chooseOpener mood seed set) ∧
    30 ≤ nwCount (chooseOpener mood seed set) := by
  have hall : partOK 16 30 (chooseOpener mood seed set) = true := by
    rcases chooseOpener_cases mood seed set with ⟨cs, hcs, hx⟩ | ⟨ts, hts, hx⟩
    · exact (by decide : ∀ cs ∈ commonSets, ∀ x ∈ cs,
        partOK 16 30 x = true) cs hcs _ hx
    · exact tailored_pool_ok mood ts hts _ hx
  obtain ⟨h1, h2⟩ := partOK_spec hall
  exact ⟨RunsLe_mono (by omega) h1, h2⟩

def allBodyBits : List Str :=
  ["Given the pressure from exams and deadlines, keep today’s plan small and focused.".data,
   "With exams and deadlines ahead, narrowing to one doable step can restore momentum.".data,
   "Sleep struggles amplify stress; a short wind-down later can help your mind settle.".data,
   "A quick alignment with teammates can reduce uncertainty and share the load.".data,
   "Let’s reduce overwhelm by narrowing scope to one clear next move.".data,
   "Clarity grows when you shrink the target to a single small action.".data]

theorem bodyBitsAll_sub (stressors : List Str) :
    ∀ x ∈ bodyBitsAll stressors, x ∈ allBodyBits := by
  intro x hx
  unfold bodyBitsAll at hx
  by_cases h0 : bodyBits stressors = []
  · rw [if_pos h0] at hx
    simp only [List.mem_cons, List.not_mem_nil, or_false] at hx
    rcases hx with rfl | rfl <;> decide
  · rw [if_neg h0] at hx
    unfold bodyBits at hx
    rcases List.mem_append.mp hx with h | h
    · rcases List.mem_append.mp h with h' | h'
      · split_ifs at h'
        · simp only [List.mem_cons, List.not_mem_nil, or_false] at h'
          rcases h' with rfl | rfl <;> decide
        · simp at h'
      · split_ifs at h'
        · simp only [List.mem_cons, List.not_mem_nil, or_false] at h'
          subst h'
          decide
        · simp at h'
    · split_ifs at h
      · simp only [List.mem_cons, List.not_mem_nil, or_false] at h
        subst h
        decide
      · simp at h

theorem bodyBitsAll_ne_nil (stressors : List Str) : bodyBitsAll stressors ≠ [] := by
  unfold bodyBitsAll
  by_cases h0 : bodyBits stressors = []
  · rw [if_pos h0]; simp
  · rw [if_neg h0]; exact h0

theorem chooseBody_ok (stressors : List Str) (mood : Str) (seed : Nat) :
    RunsLe 16 (chooseBody stressors mood seed) ∧
    9 ≤ nwCount (chooseBody stressors mood seed) := by
  unfold chooseBody
  by_cases hge : 0 ≤ jsRem (jsShr seed 2) (bodyBitsAll stressors).length
  · rw [if_pos hge]
    have hpos : 0 < (bodyBitsAll stressors).length :=
      List.length_pos.mpr (bodyBitsAll_ne_nil stressors)
    have hlt : jsRem (jsShr seed 2) (bodyBitsAll stressors).length <
        ((bodyBitsAll stressors).length : Int) :=
      Int.tmod_lt_of_pos _ (by exact_mod_cast hpos)
    have htn : (jsRem (jsShr seed 2) (bodyBitsAll stressors).length).toNat <
        (bodyBitsAll stressors).length := by omega
    have hmem := bodyBitsAll_sub stressors _ (getD_mem (d := ([] : Str)) htn)
    have := (by decide : ∀ x ∈ allBodyBits, partOK 16 9 x = true) _ hmem
    exact partOK_spec this
  · rw [if_neg hge]
    exact partOK_spec (by decide)

theorem mirror_cases (raw : Str) :
    mirrorFragment raw = [] ∨
    ∃ f : Str, f.length ≤ 60 ∧ mirrorFragment raw = aboutQuote f := by
  unfold mirrorFragment
  cases scanMatch none raw with
  | none => exact Or.inl rfl
  | some m0 =>
    dsimp only
    by_cases h : ((jsTrim m0).filter (fun c => !isPunctM c)).length < 10
    · rw [if_pos h]
      exact Or.inl rfl
    · rw [if_neg h]
      exact Or.inr ⟨_, List.length_take_le 60 _, rfl⟩

theorem aboutQuote_runs {f : Str} (h : f.length ≤ 60) :
    RunsLe 70 (aboutQuote f) := by
  unfold aboutQuote
  have h1 : RunsLe 7 ("About “".data : Str) := RunsLe_of_length (by decide)
  have h2 : RunsLe 60 f := RunsLe_of_length h
  have h3 : RunsLe 3 ("”… ".data : Str) := RunsLe_of_length (by decide)
  exact RunsLe_append_add (RunsLe_append_add h1 h2) h3

theorem nwCount_append (a b : Str) : nwCount (a ++ b) = nwCount a + nwCount b := by
  simp [nwCount, List.countP_append]

theorem body_ok (text : Str) :
    RunsLe 86 (bodyOf text) ∧ 9 ≤ nwCount (bodyOf text) := by
  obtain ⟨hr, hc⟩ := chooseBody_ok (stressorsOf text) (moodOf text) (seedOf text)
  constructor
  · unfold bodyOf
    rcases mirror_cases (rawOf text) with h | ⟨f, hf, h⟩
    · rw [h, List.nil_append]
      exact RunsLe_mono (by omega) hr
    · rw [h]
      exact RunsLe_mono (by omega)
        (RunsLe_append_add (aboutQuote_runs hf) hr)
  · unfold bodyOf
    rw [nwCount_append]
    omega

/-! ### The action, ask and crisis fragments -/

theorem joinComma_runs {R : Nat} :
    ∀ items : List Str, (∀ x ∈ items, RunsLe R x) →
      RunsLe (R + 1) (joinWith ", ".data items) := by
  intro items
  induction items with
  | nil =>
    intro _
    exact RunsLe_of_length (by simp [joinWith])
  | cons a t ih =>
    intro hall
    cases t with
    | nil =>
      exact RunsLe_mono (by omega) (hall a (List.mem_cons_self _ _))
    | cons b t' =>
      have hrw : joinWith ", ".data (a :: b :: t') =
          (a ++ [',']) ++ ' ' :: joinWith ", ".data (b :: t') := by
        show a ++ ", ".data ++ joinWith ", ".data (b :: t') = _
        rw [List.append_assoc, List.append_assoc]
        rfl
      rw [hrw]
      exact RunsLe_append_sep
        (RunsLe_append_add (hall a (List.mem_cons_self _ _))
          (RunsLe_of_length (R := 1) (by simp)))
        (ih (fun x hx => hall x (List.mem_cons_of_mem a hx)))

theorem formatList_runs {R : Nat} {items : List Str} {conj : Str}
    (hall : ∀ x ∈ items, RunsLe R x) (hconj : RunsLe R conj) :
    RunsLe (R + 2) (formatList items conj) := by
  match items with
  | [] => exact RunsLe_of_length (by simp [formatList])
  | [a] => exact RunsLe_mono (by omega) (hall a (by simp))
  | [a, b] =>
    have hrw : formatList [a, b] conj = a ++ ' ' :: (conj ++ ' ' :: b) := by
      show a ++ [' '] ++ conj ++ [' '] ++ b = _
      rw [List.append_assoc, List.append_assoc, List.append_assoc]
      rfl
    rw [hrw]
    exact RunsLe_mono (by omega) (RunsLe_append_sep (hall a (by simp))
      (RunsLe_append_sep hconj (hall b (by simp))))
  | a :: b :: c :: t =>
    show RunsLe (R + 2) (joinWith ", ".data (a :: b :: c :: t).dropLast ++
      ", ".data ++ conj ++ [' '] ++ ((a :: b :: c :: t).getLast?.getD []))
    have hrw : joinWith ", ".data (a :: b :: c :: t).dropLast ++ ", ".data ++
        conj ++ [' '] ++ ((a :: b :: c :: t).getLast?.getD []) =
        (joinWith ", ".data (a :: b :: c :: t).dropLast ++ [',']) ++
          ' ' :: (conj ++ ' ' :: ((a :: b :: c :: t).getLast?.getD [])) := by
      rw [List.append_assoc, List.append_assoc, List.append_assoc,
        List.append_assoc]
      rfl
    rw [hrw]
    refine RunsLe_append_sep ?_ ?_
    · refine @RunsLe_mono (R + 1 + 1) (R + 2) _ (by omega)
        (@RunsLe_append_add _ 1 _ _ ?_ ?_)
      · exact joinComma_runs _ (fun x hx =>
          hall x ((List.dropLast_sublist _).subset hx))
      · exact RunsLe_of_length (by simp)
    · refine RunsLe_append_sep (@RunsLe_mono _ (R + 2) _ (by omega) hconj) ?_
      refine @RunsLe_mono R (R + 2) _ (by omega) ?_
      cases hl : (a :: b :: c :: t).getLast? with
      | none => simp at hl
      | some x =>
        have := List.mem_of_mem_getLast? hl
        simpa using hall x this

theorem formatList_count {m : Nat} {items : List Str} {conj : Str}
    (hall : ∀ x ∈ items, m ≤ nwCount x) (hne : items ≠ []) :
    m ≤ nwCount (formatList items conj) := by
  match items with
  | [a] => exact hall a (by simp)
  | [a, b] =>
    show m ≤ nwCount (a ++ [' '] ++ conj ++ [' '] ++ b)
    rw [nwCount_append]
    have := hall b (by simp)
    omega
  | a :: b :: c :: t =>
    show m ≤ nwCount (joinWith ", ".data (a :: b :: c :: t).dropLast ++
      ", ".data ++ conj ++ [' '] ++ ((a :: b :: c :: t).getLast?.getD []))
    rw [nwCount_append]
    cases hl : (a :: b :: c :: t).getLast? with
    | none => simp at hl
    | some x =>
      have hx := hall x (List.mem_of_mem_getLast? hl)
      simp only [hl, Option.getD_some]
      omega

theorem rotated_length (arr : List Str) (amt : Int) :
    (rotated arr amt).length = arr.length := by
  unfold rotated
  rw [List.length_append, List.length_drop, List.length_take]
  omega

theorem rotated_ne_nil {arr : List Str} {amt : Int} (h : arr ≠ []) :
    rotated arr amt ≠ [] := by
  intro hnil
  apply h
  have hl := rotated_length arr amt
  rw [hnil] at hl
  exact List.eq_nil_of_length_eq_zero hl.symm

def allSuggestions : List Str := sleepSteps ++ examSteps ++ teamSteps ++ baseSteps

theorem suggestionsOf_sub (text : Str) :
    ∀ x ∈ suggestionsOf text, x ∈ allSuggestions := by
  intro x hx
  unfold suggestionsOf at hx
  have hx2 := (List.take_sublist 3 _).subset hx
  have hx3 := (mem_uniq _ _).mp hx2
  have hmem : ∀ y : Str, y ∈ sleepSteps ∨ y ∈ examSteps ∨ y ∈ teamSteps ∨
      y ∈ baseSteps → y ∈ allSuggestions := by
    intro y hy
    unfold allSuggestions
    rcases hy with h | h | h | h <;> simp [h]
  rcases List.mem_append.mp hx3 with h | h
  · rcases List.mem_append.mp h with h' | h'
    · rcases List.mem_append.mp h' with h'' | h''
      · split_ifs at h''
        · simp only [List.mem_singleton] at h''
          subst h''
          exact hmem _ (Or.inl (pickP_mem (by decide)))
        · simp at h''
      · split_ifs at h''
        · simp only [List.mem_singleton] at h''
          subst h''
          exact hmem _ (Or.inr (Or.inl (pickP_mem (by decide))))
        · simp at h''
    · split_ifs at h'
      · simp only [List.mem_singleton] at h'
        subst h'
        exact hmem _ (Or.inr (Or.inr (Or.inl (pickP_mem (by decide)))))
      · simp at h'
  · simp only [List.mem_cons, List.not_mem_nil, or_false] at h
    rcases h with rfl | rfl
    · exact hmem _ (Or.inr (Or.inr (Or.inr (pickP_mem (by decide)))))
    · refine hmem _ (Or.inr (Or.inr (Or.inr ?_)))
      exact rotated_subset _ (pickP_mem (rotated_ne_nil (by decide)))

theorem suggestion_ok (text : Str) :
    ∀ x ∈ suggestionsOf text, RunsLe 18 x ∧ 47 ≤ nwCount x := by
  intro x hx
  exact partOK_spec ((by decide : ∀ y ∈ allSuggestions, partOK 18 47 y = true) x
    (suggestionsOf_sub text x hx))

theorem suggestionsOf_ne_nil (text : Str) : suggestionsOf text ≠ [] := by
  unfold suggestionsOf
  exact take_three_ne_nil _
    (List.ne_nil_of_mem ((mem_uniq (pickP (seedOf text) baseSteps 0) _).mpr (by simp)))

theorem action_ok (text : Str) :
    RunsLe 86 (actionOf text) ∧ 59 ≤ nwCount (actionOf text) := by
  have hne := suggestionsOf_ne_nil text
  have htry := partOK_spec ((by decide : ∀ y ∈ tryNextPool, partOK 8 12 y = true) _
    (@pickP_mem (seedOf text) 0 tryNextPool (by decide)))
  unfold actionOf
  rw [if_pos hne]
  constructor
  · have hrw : pickP (seedOf text) tryNextPool 0 ++ [' '] ++
        formatList (suggestionsOf text) "and".data ++ ['.'] =
        pickP (seedOf text) tryNextPool 0 ++
          ' ' :: (formatList (suggestionsOf text) "and".data ++ ['.']) := by
      rw [List.append_assoc, List.append_assoc, List.singleton_append]
    rw [hrw]
    refine RunsLe_append_sep (RunsLe_mono (by omega) htry.1) ?_
    refine @RunsLe_mono (18 + 2 + 1) 86 _ (by omega)
      (@RunsLe_append_add _ 1 _ _ ?_ (RunsLe_of_length (by simp)))
    exact formatList_runs (fun x hx => (suggestion_ok text x hx).1)
      (RunsLe_of_length (by decide))
  · rw [nwCount_append, nwCount_append, nwCount_append]
    have hfc : 47 ≤ nwCount (formatList (suggestionsOf text) "and".data) :=
      formatList_count (fun x hx => (suggestion_ok text x hx).2) hne
    omega

theorem ask_ok (text : Str) :
    RunsLe 86 (askOf text) ∧ 35 ≤ nwCount (askOf text) := by
  have h := partOK_spec ((by decide : ∀ y ∈ questionsPool, partOK 11 35 y = true) _
    (@pickP_mem (seedOf text) 1 questionsPool (by decide)))
  exact ⟨RunsLe_mono (by omega) h.1, h.2⟩

theorem regen_ask_ok (text : Str) :
    RunsLe 86 (questionsPool.getD ((seedOf text + 11) % questionsPool.length) []) ∧
    35 ≤ nwCount (questionsPool.getD ((seedOf text + 11) % questionsPool.length) []) := by
  have hmem : questionsPool.getD ((seedOf text + 11) % questionsPool.length) [] ∈
      questionsPool := by
    apply getD_mem
    exact Nat.mod_lt _ (by decide)
  have h := partOK_spec ((by decide : ∀ y ∈ questionsPool, partOK 11 35 y = true) _ hmem)
  exact ⟨RunsLe_mono (by omega) h.1, h.2⟩

theorem crisis_runs (text : Str) : RunsLe 86 (crisisOf text) := by
  unfold crisisOf
  split_ifs
  · exact RunsLe_mono (by omega) (RunsLe_of_chk (R := 11) (by decide))
  · exact RunsLe_of_length (by simp)

theorem partFor_runs (text : Str) (day : Nat) :
    ∀ s : Slot, RunsLe 86 (partFor text day s) := by
  intro s
  cases s with
  | opener => exact (opener_ok _ _ _).1
  | body => exact (body_ok text).1
  | action => exact (action_ok text).1
  | ask => exact (ask_ok text).1
  | crisis => exact crisis_runs text

theorem regenPartFor_runs (text : Str) (day : Nat) :
    ∀ s : Slot, RunsLe 86 (regenPartFor text day s) := by
  intro s
  cases s with
  | opener => exact (opener_ok _ _ _).1
  | body => exact (body_ok text).1
  | action => exact (action_ok text).1
  | ask => exact (regen_ask_ok text).1
  | crisis => exact crisis_runs text

theorem runs_joinWith {R : Nat} :
    ∀ parts : List Str, (∀ p ∈ parts, RunsLe R p) →
      RunsLe R (joinWith [' '] parts) := by
  intro parts
  induction parts with
  | nil =>
    intro _
    exact RunsLe_of_length (by simp [joinWith])
  | cons a t ih =>
    intro hall
    cases t with
    | nil => exact hall a (by simp)
    | cons b t' =>
      have hrw : joinWith [' '] (a :: b :: t') =
          a ++ ' ' :: joinWith [' '] (b :: t') := by
        show a ++ [' '] ++ _ = _
        rw [List.append_assoc]
        rfl
      rw [hrw]
      exact RunsLe_append_sep (hall a (by simp))
        (ih fun x hx => hall x (by simp [hx]))

theorem count_joinWith :
    ∀ parts : List Str,
      nwCount (joinWith [' '] parts) = (parts.map nwCount).sum := by
  intro parts
  induction parts with
  | nil => rfl
  | cons a t ih =>
    cases t with
    | nil => simp [joinWith]
    | cons b t' =>
      show nwCount (a ++ [' '] ++ joinWith [' '] (b :: t')) = _
      rw [nwCount_append, nwCount_append, ih]
      have h0 : nwCount ([' '] : Str) = 0 := by decide
      simp [h0]

theorem sum_map_filter_ne (l : List Str) :
    ((l.filter (fun p => p ≠ [])).map nwCount).sum = (l.map nwCount).sum := by
  induction l with
  | nil => rfl
  | cons a t ih =>
    by_cases ha : a = []
    · subst ha
      rw [List.filter_cons_of_neg (by simp), ih, List.map_cons, List.sum_cons]
      rw [show nwCount ([] : Str) = 0 from rfl, Nat.zero_add]
    · rw [List.filter_cons_of_pos (by simp [ha]), List.map_cons, List.sum_cons, ih,
        List.map_cons, List.sum_cons]

theorem profile_order_cases (text : Str) (day : Nat) :
    ((profileOf text day).order = [Slot.opener, Slot.body, Slot.action, Slot.ask, Slot.crisis] ∧
      (altProfileOf text day).order = [Slot.body, Slot.opener, Slot.action, Slot.ask, Slot.crisis]) ∨
    ((profileOf text day).order = [Slot.body, Slot.opener, Slot.action, Slot.ask, Slot.crisis] ∧
      (altProfileOf text day).order = [Slot.opener, Slot.action, Slot.body, Slot.ask, Slot.crisis]) ∨
    ((profileOf text day).order = [Slot.opener, Slot.action, Slot.body, Slot.ask, Slot.crisis] ∧
      (altProfileOf text day).order = [Slot.action, Slot.opener, Slot.body, Slot.ask, Slot.crisis]) ∨
    ((profileOf text day).order = [Slot.action, Slot.opener, Slot.body, Slot.ask, Slot.crisis] ∧
      (altProfileOf text day).order = [Slot.opener, Slot.body, Slot.action, Slot.ask, Slot.crisis]) := by
  unfold profileOf altProfileOf
  have h4 : profileIdxOf text day < 4 := Nat.mod_lt _ (by decide)
  rcases (by omega : profileIdxOf text day = 0 ∨ profileIdxOf text day = 1 ∨
      profileIdxOf text day = 2 ∨ profileIdxOf text day = 3) with h | h | h | h <;>
    rw [h] <;> simp [STYLE_PROFILES]

theorem preGuidance_facts (text : Str) (day : Nat) :
    RunsLe 86 (preGuidanceOf text day) ∧ 133 ≤ nwCount (preGuidanceOf text day) := by
  constructor
  · unfold preGuidanceOf
    apply runs_joinWith
    intro p hp
    obtain ⟨s, _, rfl⟩ := List.mem_map.mp (List.mem_filter.mp hp).1
    exact partFor_runs text day s
  · unfold preGuidanceOf
    rw [count_joinWith, sum_map_filter_ne]
    have ho := (opener_ok (moodOf text) (seedOf text) (profileOf text day).openerSet).2
    have hb := (body_ok text).2
    have ha := (action_ok text).2
    have hq := (ask_ok text).2
    rcases profile_order_cases text day with ⟨h, _⟩ | ⟨h, _⟩ | ⟨h, _⟩ | ⟨h, _⟩ <;>
      rw [h] <;>
      simp only [List.map, List.sum_cons, List.sum_nil, partFor] <;>
      unfold openerOf <;>
      omega

theorem regenPre_facts (text : Str) (day : Nat) :
    RunsLe 86 (regenPreOf text day) ∧ 133 ≤ nwCount (regenPreOf text day) := by
  constructor
  · unfold regenPreOf
    apply runs_joinWith
    intro p hp
    obtain ⟨s, _, rfl⟩ := List.mem_map.mp (List.mem_filter.mp hp).1
    exact regenPartFor_runs text day s
  · unfold regenPreOf
    rw [count_joinWith, sum_map_filter_ne]
    have ho := (opener_ok (moodOf text) (seedOf text + 7) (altProfileOf text day).openerSet).2
    have hb := (body_ok text).2
    have ha := (action_ok text).2
    have hq := (regen_ask_ok text).2
    rcases profile_order_cases text day with ⟨_, h⟩ | ⟨_, h⟩ | ⟨_, h⟩ | ⟨_, h⟩ <;>
      rw [h] <;>
      simp only [List.map, List.sum_cons, List.sum_nil, regenPartFor] <;>
      omega

theorem boundsOf_cases (text : Str) :
    boundsOf text = (90, 200) ∨ boundsOf text = (140, 320) ∨
    boundsOf text = (180, 420) := by
  unfold boundsOf lengthTargetsFor
  split_ifs <;> simp

/-- Both attempts of the composer respect the length envelope. -/
theorem guidance_length_bounds (text : Str) (day : Nat) :
    ((boundsOf text).1 ≤ (guidance1Of text day).length ∧
      (guidance1Of text day).length ≤ (boundsOf text).2 + 1) ∧
    ((boundsOf text).1 ≤ (regenOf text day).length ∧
      (regenOf text day).length ≤ (boundsOf text).2 + 1) := by
  have hnud : RunsLe 86 nudgeS := RunsLe_of_chk (by decide)
  have h1 := preGuidance_facts text day
  have h2 := regenPre_facts text day
  have hnl : nudgeS.length = 58 := by decide
  unfold guidance1Of regenOf
  rcases boundsOf_cases text with h | h | h <;> rw [h] <;>
    exact ⟨enforce_bounds _ _ _ 86 h1.1 hnud (by omega) (by omega),
      enforce_bounds _ _ _ 86 h2.1 hnud (by omega) (by omega)⟩

/-! ### Claims C2 and C5 -/

/-- C2.  For every input, day and history, the returned guidance length lies
within the tier bounds chosen by `lengthTargetsFor` on the (possibly
compressed) input, never exceeding the maximum by more than the one
terminating period. -/
theorem claim_C2_length_envelope (text : Str) (day : Nat) (hist : List Str) :
    (lengthTargetsFor (rawOf text)).1 ≤ (unpack text day hist).1.guidance.length ∧
    (unpack text day hist).1.guidance.length ≤ (lengthTargetsFor (rawOf text)).2 + 1 := by
  have hg : (unpack text day hist).1.guidance =
      if isTooSimilarToRecent hist (guidance1Of text day) then regenOf text day
      else guidance1Of text day := by rw [unpack_eq]
  have hbeq : boundsOf text = lengthTargetsFor (rawOf text) := rfl
  rw [hg, ← hbeq]
  have hb := guidance_length_bounds text day
  by_cases h : isTooSimilarToRecent hist (guidance1Of text day) = true
  · rw [if_pos h]
    exact hb.2
  · rw [if_neg h]
    exact hb.1

/-- C5.  The deterministic composer is total: modelled as a pure function it
returns a result for every input (including the empty string), and the
guidance string is never empty — its length is at least the tier minimum of
90. -/
theorem claim_C5_totality (text : Str) (day : Nat) (hist : List Str) :
    (unpack text day hist).1.guidance ≠ [] ∧
    90 ≤ (unpack text day hist).1.guidance.length := by
  have hg : (unpack text day hist).1.guidance =
      if isTooSimilarToRecent hist (guidance1Of text day) then regenOf text day
      else guidance1Of text day := by rw [unpack_eq]
  have hb := guidance_length_bounds text day
  have hmn : 90 ≤ (boundsOf text).1 := by
    rcases boundsOf_cases text with h | h | h <;> rw [h] <;> omega
  rw [hg]
  by_cases h : isTooSimilarToRecent hist (guidance1Of text day) = true
  · rw [if_pos h]
    have := hb.2.1
    refine ⟨?_, by omega⟩
    intro hnil
    rw [hnil] at this
    simp at this
    omega
  · rw [if_neg h]
    have := hb.1.1
    refine ⟨?_, by omega⟩
    intro hnil
    rw [hnil] at this
    simp at this
    omega

/-! ### Claim C1: the crisis invariant -/


theorem crisis_mem_profile_order :
    ∀ j < STYLE_PROFILES.length,
      Slot.crisis ∈ (STYLE_PROFILES.getD j ⟨[], 0, 0⟩).order := by decide

theorem crisisLine_infix_join (parts : Slot → Str) (ord : List Slot)
    (hmem : Slot.crisis ∈ ord) (hcr : parts Slot.crisis = crisisLine) :
    crisisLine <:+: joinWith [' '] ((ord.map parts).filter (fun p => p ≠ [])) := by
  apply mem_joinWith_infix
  apply List.mem_filter.mpr
  refine ⟨?_, by decide⟩
  rw [← hcr]
  exact List.mem_map_of_mem parts hmem

def crisisExampleInput : Str := "I want to die".data

set_option maxRecDepth 100000 in
/-- C1 counterexample.  For the input "I want to die" (day index 0, empty
history) the risk flag is raised, yet the crisis line does not survive into
the returned guidance: every style profile places the crisis fragment last,
and the length envelope of this tier (maximum 200) truncates it away. -/
theorem claim_C1_counterexample :
    riskOf crisisExampleInput ≠ [] ∧
    includes crisisLine ((unpack crisisExampleInput 0 []).1.guidance) = false := by
  decide

/-- C1 amended.  If the lower-cased normalized text contains a crisis term,
then `risk_flags` is non-empty and the crisis safety line appears verbatim
in the assembled guidance of both the first attempt and the regeneration
attempt *before* the length envelope is applied; truncation by
`enforceLength` may subsequently drop it (see the counterexample). -/
theorem claim_C1_crisis (text : Str) (day : Nat)
    (h : ∃ t ∈ crisisTerms, t <:+: lcOf text) :
    riskOf text ≠ [] ∧
    crisisLine <:+: preGuidanceOf text day ∧
    crisisLine <:+: regenPreOf text day := by
  obtain ⟨t, ht, hinf⟩ := h
  have hne : crisisTerms.filter (fun k => includes k (lcOf text)) ≠ [] :=
    filter_ne_nil_of_mem ht ((includes_iff t (lcOf text)).mpr hinf)
  have hrisk : riskOf text ≠ [] := by
    unfold riskOf detectRisk
    rw [if_pos hne]
    simp
  have hcr : partFor text day Slot.crisis = crisisLine := by
    show crisisOf text = crisisLine
    unfold crisisOf
    rw [if_pos hrisk]
  refine ⟨hrisk, ?_, ?_⟩
  · unfold preGuidanceOf
    apply crisisLine_infix_join _ _ ?_ hcr
    unfold profileOf
    exact crisis_mem_profile_order _ (Nat.mod_lt _ (by decide))
  · unfold regenPreOf
    apply crisisLine_infix_join _ _ ?_ ?_
    · unfold altProfileOf
      exact crisis_mem_profile_order _ (Nat.mod_lt _ (by decide))
    · show partFor text day Slot.crisis = crisisLine
      exact hcr

def crisisWitnessInput : Str := "I feel hopeless".data

/-- Witness for the amended C1 at a concrete crisis input. -/
theorem claim_C1_crisis_witness :
    (∃ t ∈ crisisTerms, t <:+: lcOf crisisWitnessInput) ∧
    (riskOf crisisWitnessInput ≠ [] ∧
     crisisLine <:+: preGuidanceOf crisisWitnessInput 3 ∧
     crisisLine <:+: regenPreOf crisisWitnessInput 3) :=
  ⟨by decide, claim_C1_crisis crisisWitnessInput 3 (by decide)⟩

/-! ### Claim C4: anti-repetition on immediate repeats -/

theorem toksOf_nodup (s : Str) : (toksOf s).Nodup := by
  unfold toksOf
  exact nodup_uniq _

theorem jacGe85_self (a : List Str) (hnd : a.Nodup) (hne : a ≠ []) :
    jacGe85 a a = true := by
  unfold jacGe85
  have hint : (a.filter (fun x => decide (x ∈ a))).length = a.length := by
    rw [List.filter_eq_self.mpr]
    intro x hx
    simpa using hx
  have hsub : uniq (a ++ a) ⊆ a := by
    intro x hx
    have := (mem_uniq x (a ++ a)).mp hx
    simpa using this
  have hub : (uniq (a ++ a)).length ≤ a.length :=
    ((nodup_uniq _).subperm hsub).length_le
  have hlb : uniq (a ++ a) ≠ [] := by
    cases a with
    | nil => exact absurd rfl hne
    | cons x t =>
      exact List.ne_nil_of_mem ((mem_uniq x _).mpr (by simp))
  have h1 : 1 ≤ (uniq (a ++ a)).length := List.length_pos.mpr hlb
  simp only [decide_eq_true_eq]
  rw [hint]
  omega

def repeatInput : Str := "I am stressed about my exams".data

set_option maxRecDepth 100000 in
/-- C4 counterexample.  With starting history `[guidance1Of repeatInput 0]`
(the input's own first attempt), calling `unpack` twice in immediate
succession with the same text and day returns the *same* string both times
(both calls regenerate), so the two outputs have Jaccard similarity 1 ≥
0.85, contradicting the claim for this starting history. -/
theorem claim_C4_counterexample :
    (unpack repeatInput 0 [guidance1Of repeatInput 0]).1.guidance =
      (unpack repeatInput 0
        (unpack repeatInput 0 [guidance1Of repeatInput 0]).2).1.guidance ∧
    jacGe85
      (toksOf ((unpack repeatInput 0 [guidance1Of repeatInput 0]).1.guidance))
      (toksOf ((unpack repeatInput 0
        (unpack repeatInput 0 [guidance1Of repeatInput 0]).2).1.guidance)) = true := by
  decide

/-- C4 amended.  Starting from an *empty* history, if the first call's output
has a non-empty token set then the second call with the same text and day
takes the regeneration path: the first call returns the first attempt, and
the second call returns the regeneration (next style profile in cyclic
order, opener re-chosen with seed + 7, question re-chosen with seed + 11,
length envelope re-applied).  The two outputs may nonetheless still be
≥ 0.85-similar (see the counterexample). -/
theorem claim_C4_regeneration (text : Str) (day : Nat)
    (h : toksOf (guidance1Of text day) ≠ []) :
    (unpack text day []).1.guidance = guidance1Of text day ∧
    (unpack text day (unpack text day []).2).1.guidance = regenOf text day := by
  have h0 : isTooSimilarToRecent [] (guidance1Of text day) = false := rfl
  have hg1 : (unpack text day []).1.guidance = guidance1Of text day := by
    rw [unpack_eq]
    simp [h0]
  have hst : (unpack text day []).2 = [guidance1Of text day] := by
    rw [unpack_eq]
    simp [h0, rememberOutput, LRU_SIZE]
  have hsim : isTooSimilarToRecent [guidance1Of text day]
      (guidance1Of text day) = true := by
    unfold isTooSimilarToRecent
    simp only [List.any_cons, List.any_nil, Bool.or_false]
    exact jacGe85_self _ (toksOf_nodup _) h
  refine ⟨hg1, ?_⟩
  rw [hst, unpack_eq]
  simp [hsim]

def repeatWitnessInput : Str := "I am worried about my homework".data

set_option maxRecDepth 100000 in
/-- Witness for the amended C4 at a concrete input and day. -/
theorem claim_C4_regeneration_witness :
    toksOf (guidance1Of repeatWitnessInput 1) ≠ [] ∧
    ((unpack repeatWitnessInput 1 []).1.guidance =
        guidance1Of repeatWitnessInput 1 ∧
     (unpack repeatWitnessInput 1 (unpack repeatWitnessInput 1 []).2).1.guidance =
        regenOf repeatWitnessInput 1) :=
  ⟨by decide, claim_C4_regeneration repeatWitnessInput 1 (by decide)⟩

/-! ### Claim C7: mood of the running example -/

/-- The example input of the spec ("I have 3 exams this week and can't
sleep", the apostrophe written by code point). -/
def moodExampleInput : Str :=
  "I have 3 exams this week and can".data ++ [Char.ofNat 39] ++ "t sleep".data

/-- C7 counterexample.  The spec's example claims the mood falls to the
tired rule; in fact no mood-rule keyword occurs as a substring — the tired
lexicon contains "sleepy" and "insomnia" but not "sleep" — so the result is
the fallback "neutral", not "tired". -/
theorem claim_C7_counterexample :
    moodOf moodExampleInput = "neutral".data ∧
    moodOf moodExampleInput ≠ "tired".data := by decide

/-- C7 amended.  For the input "I have 3 exams this week and can't sleep",
no keyword of any of the ordered mood rules (checked overwhelmed first, then
tired, low, frustrated) occurs as a substring of the lower-cased normalized
text, so `detectMood` returns the fallback label "neutral". -/
theorem claim_C7_mood_neutral :
    (∀ r ∈ moodRules, ∀ k ∈ r.1, includes k (lcOf moodExampleInput) = false) ∧
    detectMood (lcOf moodExampleInput) = "neutral".data ∧
    moodOf moodExampleInput = "neutral".data := by decide

/-! ### Claim C6: the long-input compression boundary -/

def examFamily : List Str :=
  ["exam".data, "exams".data, "test".data, "tests".data]

def stressorLexRest : List Str := stressorLex.drop 4

/-- C8.  The stressors list never repeats a canonical tag; and when the
lower-cased text contains "tests" and "exam" but no stressor-lexicon term
outside the exam family, the stressors list is exactly `["exams"]`. -/
theorem claim_C8_canonicalization (text : Str) :
    (stressorsOf text).Nodup ∧
    (includes "tests".data (lcOf text) = true →
     includes "exam".data (lcOf text) = true →
     (∀ k ∈ stressorLexRest, includes k (lcOf text) = false) →
     stressorsOf text = ["exams".data]) := by
  refine ⟨nodup_uniq _, ?_⟩
  intro h1 h2 h3
  unfold stressorsOf
  have hsplit : stressorLex = examFamily ++ stressorLexRest := by decide
  rw [hsplit, List.filter_append]
  have hrest : stressorLexRest.filter (fun k => includes k (lcOf text)) = [] := by
    rw [List.filter_eq_nil_iff]
    intro a ha
    simp [h3 a ha]
  rw [hrest]
  have ht : includes "test".data (lcOf text) = true := by
    rw [includes_iff] at h1 ⊢
    exact (by decide : ("test".data : Str) <+: "tests".data).isInfix.trans h1
  by_cases hx : includes "exams".data (lcOf text) = true
  · have hfam : examFamily.filter (fun k => includes k (lcOf text)) = examFamily := by
      simp [examFamily, List.filter, h1, h2, ht, hx]
    rw [hfam]
    decide
  · have hfam : examFamily.filter (fun k => includes k (lcOf text)) =
        ["exam".data, "test".data, "tests".data] := by
      simp [examFamily, List.filter, h1, h2, ht, hx]
    rw [hfam]
    decide

def stressorWitnessInput : Str := "my tests exam".data

/-- Witness for C8 at a concrete input containing "tests" and "exam". -/
theorem claim_C8_canonicalization_witness :
    includes "tests".data (lcOf stressorWitnessInput) = true ∧
    includes "exam".data (lcOf stressorWitnessInput) = true ∧
    (∀ k ∈ stressorLexRest, includes k (lcOf stressorWitnessInput) = false) ∧
    stressorsOf stressorWitnessInput = ["exams".data] :=
  ⟨by decide, by decide, by decide,
   (claim_C8_canonicalization _).2 (by decide) (by decide) (by decide)⟩

/-! ### Claim C10: the mirror quotation

Character-class facts used by the `\b([A-Za-z]\x7b3,\x7d\s+)\x7b2,6\x7d[A-Za-z]\x7b3,\x7d\b`
matcher: letters, white space, word characters and the stripped punctuation
are pairwise related through their code points. -/

theorem letter_bounds {c : Char} (h : isLetterC c = true) :
    (65 ≤ c.toNat ∧ c.toNat ≤ 90) ∨ (97 ≤ c.toNat ∧ c.toNat ≤ 122) := by
  rw [isLetterC, decide_eq_true_eq] at h
  rcases h with ⟨h1, h2⟩ | ⟨h1, h2⟩
  · exact Or.inl ⟨h1, h2⟩
  · exact Or.inr ⟨h1, h2⟩

theorem ws_vals {c : Char} (h : isWsC c = true) :
    c.toNat = 32 ∨ c.toNat = 9 ∨ c.toNat = 10 ∨ c.toNat = 13 ∨ c.toNat = 11 ∨
    c.toNat = 12 ∨ c.toNat = 0xa0 ∨ c.toNat = 0x1680 ∨
    (0x2000 ≤ c.toNat ∧ c.toNat ≤ 0x200a) ∨ c.toNat = 0x2028 ∨
    c.toNat = 0x2029 ∨ c.toNat = 0x202f ∨ c.toNat = 0x205f ∨
    c.toNat = 0x3000 ∨ c.toNat = 0xfeff := by
  rw [isWsC, decide_eq_true_eq] at h
  rcases h with h|h|h|h|h|h|h|h|h|h|h|h|h|h|h <;>
    first
      | (subst h; decide)
      | omega

theorem word_vals {c : Char} (h : isWordC c = true) :
    (65 ≤ c.toNat ∧ c.toNat ≤ 90) ∨ (97 ≤ c.toNat ∧ c.toNat ≤ 122) ∨
    (48 ≤ c.toNat ∧ c.toNat ≤ 57) ∨ c.toNat = 95 := by
  rw [isWordC] at h
  rcases Bool.or_eq_true _ _ |>.mp h with h' | h'
  · rcases Bool.or_eq_true _ _ |>.mp h' with h'' | h''
    · rcases letter_bounds h'' with hb | hb
      · exact Or.inl hb
      · exact Or.inr (Or.inl hb)
    · rw [isDigitC, decide_eq_true_eq] at h''
      exact Or.inr (Or.inr (Or.inl ⟨h''.1, h''.2⟩))
  · rw [decide_eq_true_eq] at h'
    subst h'
    exact Or.inr (Or.inr (Or.inr rfl))

theorem punct_vals {c : Char} (h : isPunctM c = true) :
    c.toNat = 46 ∨ c.toNat = 44 ∨ c.toNat = 59 ∨ c.toNat = 58 ∨
    c.toNat = 33 ∨ c.toNat = 63 ∨ c.toNat = 40 ∨ c.toNat = 41 ∨
    c.toNat = 91 ∨ c.toNat = 93 ∨ c.toNat = 39 ∨ c.toNat = 34 ∨
    c.toNat = 96 := by
  rw [isPunctM, decide_eq_true_eq] at h
  rcases h with h|h|h|h|h|h|h|h|h|h|h|h|h <;>
    first
      | (subst h; decide)
      | omega

theorem ws_not_letter {c : Char} (h : isWsC c = true) : isLetterC c = false := by
  cases hL : isLetterC c with
  | false => rfl
  | true =>
    have h1 := ws_vals h
    have h2 := letter_bounds hL
    omega

theorem letter_not_ws {c : Char} (h : isLetterC c = true) : isWsC c = false := by
  cases hW : isWsC c with
  | false => rfl
  | true =>
    have h1 := ws_vals hW
    have h2 := letter_bounds h
    omega

theorem ws_not_word {c : Char} (h : isWsC c = true) : isWordC c = false := by
  cases hW : isWordC c with
  | false => rfl
  | true =>
    have h1 := ws_vals h
    have h2 := word_vals hW
    omega

theorem letter_word {c : Char} (h : isLetterC c = true) : isWordC c = true := by
  rw [isWordC, h]
  rfl

theorem notword_not_letter {c : Char} (h : isWordC c = false) :
    isLetterC c = false := by
  rw [isWordC] at h
  exact (Bool.or_eq_false_iff.mp (Bool.or_eq_false_iff.mp h).1).1

theorem letter_not_punct {c : Char} (h : isLetterC c = true) :
    isPunctM c = false := by
  cases hP : isPunctM c with
  | false => rfl
  | true =>
    have h1 := punct_vals hP
    have h2 := letter_bounds h
    omega

theorem ws_not_punct {c : Char} (h : isWsC c = true) : isPunctM c = false := by
  cases hP : isPunctM c with
  | false => rfl
  | true =>
    have h1 := punct_vals hP
    have h2 := ws_vals h
    omega

/-- A word the regex group accepts: at least three letters. -/
def WordC3 (w : Str) : Prop := 3 ≤ w.length ∧ ∀ c ∈ w, isLetterC c = true

/-- A separator the regex group accepts: at least one white-space unit. -/
def SepWs (s : Str) : Prop := 1 ≤ s.length ∧ ∀ c ∈ s, isWsC c = true

/-- The tail starts at a `\b`: empty or a non-word unit first. -/
def NonWordHead (r : Str) : Prop := ∀ c, r.head? = some c → isWordC c = false

/-- The prefix ends at a `\b`: empty or a non-word unit last. -/
def NonWordLast (l : Str) : Prop := ∀ p, l.getLast? = some p → isWordC p = false

/-- The suffix starts with three boundary-delimited words of three or more
letters; this is where the regex can match. -/
def Core3 (l : Str) : Prop :=
  ∃ w1 s1 w2 s2 w3 post,
    l = w1 ++ (s1 ++ (w2 ++ (s2 ++ (w3 ++ post)))) ∧
    WordC3 w1 ∧ SepWs s1 ∧ WordC3 w2 ∧ SepWs s2 ∧ WordC3 w3 ∧ NonWordHead post

/-- The text contains, at a word boundary, a run of three (hence 3–7) words
of at least three letters each. -/
def HasRun (t : Str) : Prop :=
  ∃ pre rest, t = pre ++ rest ∧ NonWordLast pre ∧ Core3 rest

/-- One pair produced by the group loop: a word plus its separator. -/
def PairOK (p : Str × Str) : Prop :=
  3 ≤ p.1.length ∧ (∀ c ∈ p.1, isLetterC c = true) ∧
  1 ≤ p.2.length ∧ (∀ c ∈ p.2, isWsC c = true)

theorem takeWhile_all_append (p : Char → Bool) :
    ∀ (w r : Str), (∀ c ∈ w, p c = true) →
      (∀ c, r.head? = some c → p c = false) →
      (w ++ r).takeWhile p = w := by
  intro w
  induction w with
  | nil =>
    intro r _ hr
    cases r with
    | nil => rfl
    | cons c r' =>
      rw [List.nil_append, List.takeWhile_cons, hr c rfl]
      rfl
  | cons a w' ih =>
    intro r hw hr
    rw [List.cons_append, List.takeWhile_cons, hw a (by simp), if_pos rfl,
      ih r (fun c hc => hw c (by simp [hc])) hr]

theorem drop_takeWhile_length (p : Char → Bool) (l : Str) :
    l.drop (l.takeWhile p).length = l.dropWhile p := by
  induction l with
  | nil => rfl
  | cons a l ih =>
    rw [List.takeWhile_cons]
    by_cases h : p a = true
    · rw [if_pos h, List.length_cons, List.drop_succ_cons, ih,
        List.dropWhile_cons_of_pos h]
    · rw [if_neg h, List.length_nil, List.drop_zero,
        List.dropWhile_cons_of_neg h]

theorem joinPairsFull_cons (p : Str × Str) (ps : List (Str × Str)) :
    joinPairsFull (p :: ps) = p.1 ++ p.2 ++ joinPairsFull ps := by
  unfold joinPairsFull
  rw [List.map_cons, List.flatten_cons]

/-- One successful iteration of the group loop on a word–separator prefix. -/
theorem chainPairs_step (k : Nat) (w s r : Str)
    (hw3 : 3 ≤ w.length) (hwall : ∀ c ∈ w, isLetterC c = true)
    (hs1 : s ≠ []) (hsall : ∀ c ∈ s, isWsC c = true)
    (hr : ∀ c, r.head? = some c → isWsC c = false) :
    chainPairs (k + 1) (w ++ (s ++ r)) =
      ((w, s) :: (chainPairs k r).1, (chainPairs k r).2) := by
  have hsr : ∀ c, (s ++ r).head? = some c → isLetterC c = false := by
    intro c hc
    cases s with
    | nil => exact absurd rfl hs1
    | cons a s' =>
      rw [List.cons_append, List.head?_cons, Option.some.injEq] at hc
      subst hc
      exact ws_not_letter (hsall a (by simp))
  have htw : (w ++ (s ++ r)).takeWhile isLetterC = w :=
    takeWhile_all_append _ w (s ++ r) hwall hsr
  have hdw : (w ++ (s ++ r)).drop w.length = s ++ r := List.drop_left _ _
  have htw2 : (s ++ r).takeWhile isWsC = s :=
    takeWhile_all_append _ s r hsall hr
  have hdw2 : (s ++ r).drop s.length = r := List.drop_left _ _
  rw [chainPairs, htw, hdw, htw2, hdw2, if_pos hw3,
    if_pos (show 1 ≤ s.length from List.length_pos.mpr hs1)]

/-- What the group loop guarantees about its output: the input splits into
the produced pairs followed by the rest, there are at most `k` pairs, and
every pair is a ≥3-letter word plus a ≥1-unit separator. -/
theorem chainPairs_spec : ∀ (k : Nat) (l : Str),
    l = joinPairsFull (chainPairs k l).1 ++ (chainPairs k l).2 ∧
    (chainPairs k l).1.length ≤ k ∧
    (∀ p ∈ (chainPairs k l).1, PairOK p) := by
  intro k
  induction k with
  | zero =>
    intro l
    exact ⟨rfl, by simp [chainPairs], by simp [chainPairs]⟩
  | succ k ih =>
    intro l
    rw [chainPairs]
    split_ifs with h1 h2
    · have e1 : l.takeWhile isLetterC ++ l.drop (l.takeWhile isLetterC).length
          = l := by
        rw [drop_takeWhile_length]
        exact List.takeWhile_append_dropWhile _ _
      have e2 : (l.drop (l.takeWhile isLetterC).length).takeWhile isWsC ++
          (l.drop (l.takeWhile isLetterC).length).drop
            ((l.drop (l.takeWhile isLetterC).length).takeWhile isWsC).length =
          l.drop (l.takeWhile isLetterC).length := by
        rw [drop_takeWhile_length, drop_takeWhile_length]
        exact List.takeWhile_append_dropWhile _ _
      refine ⟨?_, ?_, ?_⟩
      · rw [joinPairsFull_cons]
        simp only [List.append_assoc]
        rw [← (ih _).1, e2, e1]
      · rw [List.length_cons]
        have := (ih ((l.drop (l.takeWhile isLetterC).length).drop
          ((l.drop (l.takeWhile isLetterC).length).takeWhile isWsC).length)).2.1
        omega
      · intro p hp
        rcases List.mem_cons.mp hp with hp | hp
        · subst hp
          exact ⟨h1, fun c hc => List.mem_takeWhile_imp hc, h2,
            fun c hc => List.mem_takeWhile_imp hc⟩
        · exact (ih _).2.2 p hp
    · exact ⟨by simp [joinPairsFull], by simp, by simp⟩
    · exact ⟨by simp [joinPairsFull], by simp, by simp⟩

theorem join_pairs_length (ps : List (Str × Str)) (hps : ∀ p ∈ ps, PairOK p) :
    4 * ps.length ≤ (joinPairsFull ps).length := by
  induction ps with
  | nil => simp [joinPairsFull]
  | cons p t ih =>
    rw [joinPairsFull_cons, List.length_append, List.length_append,
      List.length_cons]
    have h1 := hps p (by simp)
    have h2 := ih (fun q hq => hps q (by simp [hq]))
    obtain ⟨ha, _, hb, _⟩ := h1
    omega

theorem mem_joinPairsFull {c : Char} {ps : List (Str × Str)}
    (h : c ∈ joinPairsFull ps) : ∃ p ∈ ps, c ∈ p.1 ∨ c ∈ p.2 := by
  unfold joinPairsFull at h
  rw [List.mem_flatten] at h
  obtain ⟨l, hl, hc⟩ := h
  rw [List.mem_map] at hl
  obtain ⟨p, hp, hpl⟩ := hl
  rw [← hpl] at hc
  rcases List.mem_append.mp hc with h | h
  · exact ⟨p, hp, Or.inl h⟩
  · exact ⟨p, hp, Or.inr h⟩

/-- Shape facts for a matched fragment `joinPairsFull ps ++ w`: it is at
least 11 units long, consists of letters and white space only, and starts
and ends with a letter. -/
theorem mfacts (ps : List (Str × Str)) (w : Str)
    (hps : ∀ p ∈ ps, PairOK p) (h2 : 2 ≤ ps.length)
    (hw3 : 3 ≤ w.length) (hwall : ∀ c ∈ w, isLetterC c = true) :
    11 ≤ (joinPairsFull ps ++ w).length ∧
    (∀ c ∈ joinPairsFull ps ++ w, isLetterC c = true ∨ isWsC c = true) ∧
    (∀ c, (joinPairsFull ps ++ w).head? = some c → isLetterC c = true) ∧
    (∀ c, (joinPairsFull ps ++ w).getLast? = some c → isLetterC c = true) := by
  refine ⟨?_, ?_, ?_, ?_⟩
  · rw [List.length_append]
    have := join_pairs_length ps hps
    omega
  · intro c hc
    rcases List.mem_append.mp hc with h | h
    · obtain ⟨p, hp, hcp⟩ := mem_joinPairsFull h
      obtain ⟨_, hl1, _, hl2⟩ := hps p hp
      rcases hcp with h' | h'
      · exact Or.inl (hl1 c h')
      · exact Or.inr (hl2 c h')
    · exact Or.inl (hwall c h)
  · intro c hc
    cases ps with
    | nil => simp at h2
    | cons p t =>
      rw [joinPairsFull_cons] at hc
      obtain ⟨hp3, hpl, _, _⟩ := hps p (by simp)
      have hne : p.1 ≠ [] := by
        intro hnil
        rw [hnil] at hp3
        simp at hp3
      rw [List.append_assoc, List.append_assoc,
        List.head?_append_of_ne_nil _ hne] at hc
      cases hp1c : p.1 with
      | nil => exact absurd hp1c hne
      | cons a t' =>
        rw [hp1c, List.head?_cons, Option.some.injEq] at hc
        subst hc
        exact hpl a (by rw [hp1c]; simp)
  · intro c hc
    have hwne : w ≠ [] := by
      intro hnil
      rw [hnil] at hw3
      simp at hw3
    rw [List.getLast?_append_of_ne_nil _ hwne] at hc
    exact hwall c (List.mem_of_mem_getLast? hc)

theorem take_getD_drop {α : Type} (l : List α) (k : Nat) (d : α)
    (hk : k < l.length) :
    l.take k ++ l.getD k d :: l.drop (k + 1) = l := by
  rw [List.getD_eq_getElem l d hk, List.getElem_cons_drop, List.take_append_drop]

theorem joinPairsFull_append (a b : List (Str × Str)) :
    joinPairsFull (a ++ b) = joinPairsFull a ++ joinPairsFull b := by
  unfold joinPairsFull
  rw [List.map_append, List.flatten_append]

/-- Three completed group iterations at the current position give the
three-word decomposition the specification predicate asks for. -/
theorem core3_of_chain (l : Str) (h3 : 3 ≤ (chainPairs 7 l).1.length) :
    Core3 l := by
  obtain ⟨heq, _, hok⟩ := chainPairs_spec 7 l
  rcases hps : (chainPairs 7 l).1 with _ | ⟨p1, _ | ⟨p2, _ | ⟨p3, t⟩⟩⟩ <;>
    rw [hps] at h3
  · simp at h3
  · simp at h3
  · simp at h3
  · rw [hps] at heq hok
    rw [joinPairsFull_cons, joinPairsFull_cons, joinPairsFull_cons] at heq
    obtain ⟨h1a, h1b, h1c, h1d⟩ := hok p1 (by simp)
    obtain ⟨h2a, h2b, h2c, h2d⟩ := hok p2 (by simp)
    obtain ⟨h3a, h3b, h3c, h3d⟩ := hok p3 (by simp)
    refine ⟨p1.1, p1.2, p2.1, p2.2, p3.1,
      p3.2 ++ (joinPairsFull t ++ (chainPairs 7 l).2), ?_, ⟨h1a, h1b⟩,
      ⟨h1c, h1d⟩, ⟨h2a, h2b⟩, ⟨h2c, h2d⟩, ⟨h3a, h3b⟩, ?_⟩
    · conv_lhs => rw [heq]
      simp [List.append_assoc]
    · intro c hc
      have hne : p3.2 ≠ [] := by
        intro hnil
        rw [hnil] at h3c
        simp at h3c
      rw [List.head?_append_of_ne_nil _ hne] at hc
      cases hp2c : p3.2 with
      | nil => exact absurd hp2c hne
      | cons a t' =>
        rw [hp2c, List.head?_cons, Option.some.injEq] at hc
        subst hc
        exact ws_not_word (h3d a (by rw [hp2c]; simp))

/-- The `NonWordHead` fact packaged inside a true `finalOkB`. -/
theorem finalOkB_spec {l : Str} (h : finalOkB l = true) :
    3 ≤ (l.takeWhile isLetterC).length ∧
    (∀ c, (l.dropWhile isLetterC).head? = some c → isWordC c = false) := by
  rw [finalOkB, Bool.and_eq_true] at h
  obtain ⟨h1, h2⟩ := h
  refine ⟨of_decide_eq_true h1, ?_⟩
  intro c hc
  rw [drop_takeWhile_length] at h2
  rw [hc] at h2
  simp at h2
  exact h2

/-- Two completed iterations plus a matching final word also give the
three-word decomposition. -/
theorem core3_two_final (l : Str)
    (h2 : (chainPairs 7 l).1.length = 2)
    (hfo : finalOkB (chainPairs 7 l).2 = true) : Core3 l := by
  obtain ⟨heq, _, hok⟩ := chainPairs_spec 7 l
  rcases hps : (chainPairs 7 l).1 with _ | ⟨p1, _ | ⟨p2, t⟩⟩ <;>
    rw [hps] at h2
  · simp at h2
  · simp at h2
  · have ht : t = [] := by
      rw [List.length_cons, List.length_cons] at h2
      exact List.length_eq_zero.mp (by omega)
    subst ht
    rw [hps] at heq hok
    rw [joinPairsFull_cons, joinPairsFull_cons] at heq
    obtain ⟨h1a, h1b, h1c, h1d⟩ := hok p1 (by simp)
    obtain ⟨h2a, h2b, h2c, h2d⟩ := hok p2 (by simp)
    obtain ⟨hf3, hfnw⟩ := finalOkB_spec hfo
    refine ⟨p1.1, p1.2, p2.1, p2.2,
      (chainPairs 7 l).2.takeWhile isLetterC,
      (chainPairs 7 l).2.dropWhile isLetterC, ?_, ⟨h1a, h1b⟩, ⟨h1c, h1d⟩,
      ⟨h2a, h2b⟩, ⟨h2c, h2d⟩,
      ⟨hf3, fun c hc => List.mem_takeWhile_imp hc⟩, hfnw⟩
    conv_lhs => rw [heq]
    conv_rhs =>
      rw [List.takeWhile_append_dropWhile isLetterC (chainPairs 7 l).2]
    simp [joinPairsFull, List.append_assoc]

/-- Shared shape argument for the two `matchAt` branches that return the
first `k` pairs followed by the bare `k`-th word. -/
theorem matchAt_last_shape (l : Str) (k : Nat)
    (hk : (chainPairs 7 l).1.length = k + 1) (h2k : 2 ≤ k) :
    (joinPairsFull ((chainPairs 7 l).1.take k) ++
      ((chainPairs 7 l).1.getD k ([], [])).1) <+: l ∧
    11 ≤ (joinPairsFull ((chainPairs 7 l).1.take k) ++
      ((chainPairs 7 l).1.getD k ([], [])).1).length ∧
    (∀ c ∈ joinPairsFull ((chainPairs 7 l).1.take k) ++
      ((chainPairs 7 l).1.getD k ([], [])).1,
      isLetterC c = true ∨ isWsC c = true) ∧
    (∀ c, (joinPairsFull ((chainPairs 7 l).1.take k) ++
      ((chainPairs 7 l).1.getD k ([], [])).1).head? = some c →
      isLetterC c = true) ∧
    (∀ c, (joinPairsFull ((chainPairs 7 l).1.take k) ++
      ((chainPairs 7 l).1.getD k ([], [])).1).getLast? = some c →
      isLetterC c = true) := by
  obtain ⟨heq, hlen, hok⟩ := chainPairs_spec 7 l
  have hklt : k < (chainPairs 7 l).1.length := by omega
  obtain ⟨hga, hgb, _, _⟩ := hok _ (getD_mem hklt)
  have hm := mfacts ((chainPairs 7 l).1.take k)
    ((chainPairs 7 l).1.getD k ([], [])).1
    (fun p hp => hok p (List.mem_of_mem_take hp))
    (by rw [List.length_take]; omega) hga hgb
  refine ⟨?_, hm.1, hm.2.1, hm.2.2.1, hm.2.2.2⟩
  have hsplit := take_getD_drop (chainPairs 7 l).1 k ([], []) hklt
  have hdropnil : (chainPairs 7 l).1.drop (k + 1) = [] := by
    rw [List.drop_eq_nil_iff]
    omega
  rw [hdropnil] at hsplit
  refine ⟨((chainPairs 7 l).1.getD k ([], [])).2 ++ (chainPairs 7 l).2, ?_⟩
  conv_rhs => rw [heq, ← hsplit]
  rw [joinPairsFull_append, joinPairsFull_cons]
  simp [joinPairsFull, List.append_assoc]

/-- Soundness of the position matcher: a returned fragment sits at a
three-word run, is a prefix of the position's suffix, is at least 11 units
long, holds only letters and white space, and is letter-delimited. -/
theorem matchAt_sound {l m : Str} (h : matchAt l = some m) :
    Core3 l ∧ m <+: l ∧ 11 ≤ m.length ∧
    (∀ c ∈ m, isLetterC c = true ∨ isWsC c = true) ∧
    (∀ c, m.head? = some c → isLetterC c = true) ∧
    (∀ c, m.getLast? = some c → isLetterC c = true) := by
  rw [matchAt] at h
  split_ifs at h with h7 hfo h3
  · rw [Option.some.injEq] at h
    subst h
    have hs := matchAt_last_shape l 6 (by omega) (by omega)
    exact ⟨core3_of_chain l (by omega), hs.1, hs.2.1, hs.2.2.1,
      hs.2.2.2.1, hs.2.2.2.2⟩
  · rw [Option.some.injEq] at h
    subst h
    obtain ⟨heq, hlen, hok⟩ := chainPairs_spec 7 l
    obtain ⟨hf3, _⟩ := finalOkB_spec hfo.1
    have hm := mfacts (chainPairs 7 l).1
      ((chainPairs 7 l).2.takeWhile isLetterC) hok hfo.2 hf3
      (fun c hc => List.mem_takeWhile_imp hc)
    have hcore : Core3 l := by
      by_cases hc3 : 3 ≤ (chainPairs 7 l).1.length
      · exact core3_of_chain l hc3
      · exact core3_two_final l (by omega) hfo.1
    refine ⟨hcore, ⟨(chainPairs 7 l).2.dropWhile isLetterC, ?_⟩,
      hm.1, hm.2.1, hm.2.2.1, hm.2.2.2⟩
    conv_rhs =>
      rw [heq, ← List.takeWhile_append_dropWhile isLetterC (chainPairs 7 l).2]
    exact List.append_assoc _ _ _
  · rw [Option.some.injEq] at h
    subst h
    have hs := matchAt_last_shape l ((chainPairs 7 l).1.length - 1)
      (by omega) (by omega)
    exact ⟨core3_of_chain l h3, hs.1, hs.2.1, hs.2.2.1,
      hs.2.2.2.1, hs.2.2.2.2⟩

/-- Soundness of the scan: a successful scan splits the text at a word
boundary where the position matcher returns the fragment. -/
theorem scanMatch_sound : ∀ (t : Str) (prev : Option Char) (m : Str),
    scanMatch prev t = some m →
    ∃ pre suf, t = pre ++ suf ∧ matchAt suf = some m ∧
      (∀ p, pre = [] → prev = some p → isWordC p = false) ∧
      NonWordLast pre := by
  intro t
  induction t with
  | nil =>
    intro prev m h
    rw [scanMatch] at h
    exact absurd h (by simp)
  | cons c t' ih =>
    intro prev m h
    rw [scanMatch.eq_def] at h
    dsimp only at h
    split_ifs at h with hc
    · cases hm : matchAt (c :: t') with
      | some m0 =>
        rw [hm] at h
        refine ⟨[], c :: t', rfl, by rw [hm]; exact h, ?_, ?_⟩
        · intro p _ hp
          have hb := (Bool.and_eq_true _ _ |>.mp hc).2
          rw [hp] at hb
          simp at hb
          exact hb
        · intro p hp
          simp at hp
      | none =>
        rw [hm] at h
        obtain ⟨pre, suf, he, hma, hpre0, hlast⟩ := ih (some c) m h
        refine ⟨c :: pre, suf, by rw [List.cons_append, he], hma, ?_, ?_⟩
        · intro p hnil
          simp at hnil
        · intro p hp
          cases hpre : pre with
          | nil =>
            rw [hpre] at hp
            simp at hp
            rw [← hp]
            exact hpre0 c hpre rfl
          | cons b pre' =>
            rw [hpre, List.getLast?_cons_cons] at hp
            apply hlast
            rw [hpre]
            exact hp
    · obtain ⟨pre, suf, he, hma, hpre0, hlast⟩ := ih (some c) m h
      refine ⟨c :: pre, suf, by rw [List.cons_append, he], hma, ?_, ?_⟩
      · intro p hnil
        simp at hnil
      · intro p hp
        cases hpre : pre with
        | nil =>
          rw [hpre] at hp
          simp at hp
          rw [← hp]
          exact hpre0 c hpre rfl
        | cons b pre' =>
          rw [hpre, List.getLast?_cons_cons] at hp
          apply hlast
          rw [hpre]
          exact hp

/-- Completeness of the scan: if the scan fails, the position matcher
fails at every word-boundary letter position. -/
theorem scanMatch_none : ∀ (t : Str) (prev : Option Char),
    scanMatch prev t = none →
    ∀ pre c suf, t = pre ++ c :: suf → isLetterC c = true →
      (∀ p, pre = [] → prev = some p → isWordC p = false) →
      NonWordLast pre →
      matchAt (c :: suf) = none := by
  intro t
  induction t with
  | nil =>
    intro prev _ pre c suf he
    cases pre <;> simp at he
  | cons a t' ih =>
    intro prev hscan pre c suf he hlet hpre0 hlast
    rw [scanMatch.eq_def] at hscan
    dsimp only at hscan
    have hrest : scanMatch (some a) t' = none := by
      split_ifs at hscan
      · cases hm : matchAt (a :: t') with
        | some m0 =>
          rw [hm] at hscan
          exact absurd hscan (by simp)
        | none =>
          rw [hm] at hscan
          exact hscan
      · exact hscan
    cases pre with
    | nil =>
      rw [List.nil_append, List.cons.injEq] at he
      obtain ⟨hac, hts⟩ := he
      subst hac
      subst hts
      cases prev with
      | none =>
        simp only [hlet, Bool.true_and] at hscan
        cases hm : matchAt (a :: t') with
        | some m0 =>
          rw [hm] at hscan
          exact absurd hscan (by simp)
        | none => rfl
      | some q =>
        have hw : isWordC q = false := hpre0 q rfl rfl
        simp only [hlet, hw, Bool.not_false, Bool.true_and] at hscan
        cases hm : matchAt (a :: t') with
        | some m0 =>
          rw [hm] at hscan
          exact absurd hscan (by simp)
        | none => rfl
    | cons b pre' =>
      rw [List.cons_append, List.cons.injEq] at he
      obtain ⟨hab, hts⟩ := he
      subst hab
      refine ih (some a) hrest pre' c suf hts hlet ?_ ?_
      · intro p hnil hp
        rw [Option.some.injEq] at hp
        subst hp
        apply hlast
        rw [hnil]
        rfl
      · intro p hp
        cases hpre' : pre' with
        | nil =>
          rw [hpre', List.getLast?_nil] at hp
          exact absurd hp (by simp)
        | cons d pre'' =>
          apply hlast
          rw [hpre', List.getLast?_cons_cons]
          rw [hpre'] at hp
          exact hp

theorem head?_dropWhile_neg (p : Char → Bool) (l : Str) :
    ∀ c, (l.dropWhile p).head? = some c → p c = false := by
  intro c hc
  cases hd : l.dropWhile p with
  | nil =>
    rw [hd] at hc
    exact absurd hc (by simp)
  | cons d r =>
    rw [hd, List.head?_cons, Option.some.injEq] at hc
    subst hc
    exact head_of_dropWhile_eq_cons hd

/-- Completeness of the position matcher: at a three-word run it always
returns a fragment. -/
theorem matchAt_complete (w1 s1 w2 s2 w3 post : Str)
    (h1 : WordC3 w1) (hs1 : SepWs s1) (h2 : WordC3 w2) (hs2 : SepWs s2)
    (h3 : WordC3 w3) (hpost : NonWordHead post) :
    matchAt (w1 ++ (s1 ++ (w2 ++ (s2 ++ (w3 ++ post))))) ≠ none := by
  obtain ⟨h1a, h1b⟩ := h1
  obtain ⟨hs1a, hs1b⟩ := hs1
  obtain ⟨h2a, h2b⟩ := h2
  obtain ⟨hs2a, hs2b⟩ := hs2
  obtain ⟨h3a, h3b⟩ := h3
  have hs1ne : s1 ≠ [] := by
    intro hx
    rw [hx] at hs1a
    simp at hs1a
  have hs2ne : s2 ≠ [] := by
    intro hx
    rw [hx] at hs2a
    simp at hs2a
  have hw2ne : w2 ≠ [] := by
    intro hx
    rw [hx] at h2a
    simp at h2a
  have hr1 : ∀ c, (w2 ++ (s2 ++ (w3 ++ post))).head? = some c →
      isWsC c = false := by
    intro c hc
    rw [List.head?_append_of_ne_nil _ hw2ne] at hc
    cases hw2c : w2 with
    | nil => exact absurd hw2c hw2ne
    | cons a t' =>
      rw [hw2c, List.head?_cons, Option.some.injEq] at hc
      subst hc
      exact letter_not_ws (h2b a (by rw [hw2c]; simp))
  have hw3ne : w3 ≠ [] := by
    intro hx
    rw [hx] at h3a
    simp at h3a
  have hr2 : ∀ c, (w3 ++ post).head? = some c → isWsC c = false := by
    intro c hc
    rw [List.head?_append_of_ne_nil _ hw3ne] at hc
    cases hw3c : w3 with
    | nil => exact absurd hw3c hw3ne
    | cons a t' =>
      rw [hw3c, List.head?_cons, Option.some.injEq] at hc
      subst hc
      exact letter_not_ws (h3b a (by rw [hw3c]; simp))
  have e1 : chainPairs 7 (w1 ++ (s1 ++ (w2 ++ (s2 ++ (w3 ++ post))))) =
      ((w1, s1) :: (chainPairs 6 (w2 ++ (s2 ++ (w3 ++ post)))).1,
       (chainPairs 6 (w2 ++ (s2 ++ (w3 ++ post)))).2) :=
    chainPairs_step 6 w1 s1 _ h1a h1b hs1ne hs1b hr1
  have e2 : chainPairs 6 (w2 ++ (s2 ++ (w3 ++ post))) =
      ((w2, s2) :: (chainPairs 5 (w3 ++ post)).1,
       (chainPairs 5 (w3 ++ post)).2) :=
    chainPairs_step 5 w2 s2 _ h2a h2b hs2ne hs2b hr2
  have htw3 : (w3 ++ post).takeWhile isLetterC = w3 :=
    takeWhile_all_append _ w3 post h3b
      (fun c hc => notword_not_letter (hpost c hc))
  have hdw3 : (w3 ++ post).drop w3.length = post := List.drop_left _ _
  by_cases hsp : 1 ≤ (post.takeWhile isWsC).length
  · have hspne : post.takeWhile isWsC ≠ [] := by
      intro hx
      rw [hx] at hsp
      simp at hsp
    have e3 : chainPairs 5 (w3 ++ post) =
        ((w3, post.takeWhile isWsC) ::
          (chainPairs 4 (post.dropWhile isWsC)).1,
         (chainPairs 4 (post.dropWhile isWsC)).2) := by
      have hstep := chainPairs_step 4 w3 (post.takeWhile isWsC)
        (post.dropWhile isWsC) h3a h3b hspne
        (fun c hc => List.mem_takeWhile_imp hc)
        (head?_dropWhile_neg isWsC post)
      rw [List.takeWhile_append_dropWhile] at hstep
      exact hstep
    unfold matchAt
    rw [e1, e2, e3]
    dsimp only
    split_ifs with ha hb hc3
    · simp
    · simp
    · simp
    · exfalso
      apply hc3
      rw [List.length_cons, List.length_cons, List.length_cons]
      omega
  · have e3 : chainPairs 5 (w3 ++ post) = ([], w3 ++ post) := by
      have h5 : chainPairs 5 (w3 ++ post) = chainPairs (4 + 1) (w3 ++ post) :=
        rfl
      rw [h5, chainPairs, htw3, hdw3, if_pos h3a, if_neg hsp]
    unfold matchAt
    rw [e1, e2, e3]
    dsimp only
    split_ifs with ha hb hc3
    · simp
    · simp
    · simp
    · exfalso
      apply hb
      constructor
      · unfold finalOkB
        rw [htw3, hdw3]
        rw [Bool.and_eq_true]
        refine ⟨decide_eq_true h3a, ?_⟩
        cases hh : post.head? with
        | none => rfl
        | some c => simp [hpost c hh]
      · rw [List.length_cons, List.length_cons]
        omega

theorem jsTrim_eq_self (m : Str)
    (hh : ∀ c, m.head? = some c → isWsC c = false)
    (hl : ∀ c, m.getLast? = some c → isWsC c = false) : jsTrim m = m := by
  unfold jsTrim trimStart trimEnd
  cases m with
  | nil => rfl
  | cons a m' =>
    have h1 : (a :: m').dropWhile isWsC = a :: m' :=
      List.dropWhile_cons_of_neg (by simp [hh a rfl])
    rw [h1]
    cases hr : (a :: m').reverse with
    | nil => exact absurd (congrArg List.length hr) (by simp)
    | cons b r' =>
      have hb : isWsC b = false := by
        apply hl
        rw [← List.head?_reverse, hr, List.head?_cons]
      rw [List.dropWhile_cons_of_neg (by simp [hb])]
      rw [← hr, List.reverse_reverse]

theorem filter_punct_eq_self (m : Str)
    (hm : ∀ c ∈ m, isLetterC c = true ∨ isWsC c = true) :
    m.filter (fun c => !isPunctM c) = m := by
  rw [List.filter_eq_self]
  intro c hc
  rcases hm c hc with h | h
  · simp [letter_not_punct h]
  · simp [ws_not_punct h]

/-- A successful scan fixes the mirror fragment: the echoed quotation is
the first 60 units of the match, itself a verbatim infix of the text of
length at least 11 (so the cleaned-length guard never fires). -/
theorem mirror_of_scan {t m : Str} (h : scanMatch none t = some m) :
    mirrorFragment t = aboutQuote (m.take 60) ∧ 11 ≤ m.length ∧ m <:+: t := by
  obtain ⟨pre, suf, he, hma, _, _⟩ := scanMatch_sound t none m h
  obtain ⟨_, hpref, hlen, hmem, hhd, hlst⟩ := matchAt_sound hma
  obtain ⟨tail, htail⟩ := hpref
  have hinf : m <:+: t := ⟨pre, tail, by rw [he, ← htail, List.append_assoc]⟩
  have htrim : jsTrim m = m := jsTrim_eq_self m
    (fun c hc => letter_not_ws (hhd c hc))
    (fun c hc => letter_not_ws (hlst c hc))
  have hfil : m.filter (fun c => !isPunctM c) = m := filter_punct_eq_self m hmem
  have hmf : mirrorFragment t = aboutQuote (m.take 60) := by
    unfold mirrorFragment
    rw [h]
    dsimp only
    rw [htrim, hfil]
    rw [if_neg (by omega : ¬ m.length < 10)]
  exact ⟨hmf, hlen, hinf⟩

theorem hasRun_of_scan {t m : Str} (h : scanMatch none t = some m) :
    HasRun t := by
  obtain ⟨pre, suf, he, hma, _, hlast⟩ := scanMatch_sound t none m h
  exact ⟨pre, suf, he, hlast, (matchAt_sound hma).1⟩

theorem scan_of_hasRun {t : Str} (h : HasRun t) : scanMatch none t ≠ none := by
  obtain ⟨pre, rest, he, hlast, w1, s1, w2, s2, w3, post, hre, h1, hs1, h2,
    hs2, h3, hpost⟩ := h
  intro hnone
  obtain ⟨h1a, h1b⟩ := h1
  cases hw1 : w1 with
  | nil =>
    rw [hw1] at h1a
    simp at h1a
  | cons c w1' =>
    have hle : isLetterC c = true := h1b c (by rw [hw1]; simp)
    have hnm := scanMatch_none t none hnone pre c
      (w1' ++ (s1 ++ (w2 ++ (s2 ++ (w3 ++ post)))))
      (by rw [he, hre, hw1, List.cons_append]) hle
      (fun p _ hp => absurd hp (by simp)) hlast
    apply matchAt_complete w1 s1 w2 s2 w3 post ⟨h1a, h1b⟩ hs1 h2 hs2 h3 hpost
    rw [hw1, List.cons_append]
    exact hnm

/-- C10.  If the (possibly compressed) input contains, at word boundaries,
a run of 3–7 words of three or more letters each — a three-word run
suffices, and the cleaned form of any such match is automatically at least
10 (indeed 11) characters — then the body fragment of the first attempt
starts with a verbatim quotation of at most 60 characters of the input
(`About “f”… `) followed by the chosen body sentence; otherwise the body is
the chosen body sentence alone.  User text is thus echoed into the output. -/
theorem claim_C10_mirror_echo (text : Str) :
    (HasRun (rawOf text) →
      ∃ f, 10 ≤ f.length ∧ f.length ≤ 60 ∧ f <:+: rawOf text ∧
        bodyOf text = aboutQuote f ++
          chooseBody (stressorsOf text) (moodOf text) (seedOf text)) ∧
    (¬ HasRun (rawOf text) →
      bodyOf text = chooseBody (stressorsOf text) (moodOf text) (seedOf text)) := by
  constructor
  · intro h
    cases hs : scanMatch none (rawOf text) with
    | none => exact absurd hs (scan_of_hasRun h)
    | some m =>
      obtain ⟨hmf, hlen, hinf⟩ := mirror_of_scan hs
      refine ⟨m.take 60, ?_, ?_, ?_, ?_⟩
      · rw [List.length_take]
        omega
      · rw [List.length_take]
        omega
      · exact ((List.take_prefix 60 m).isInfix).trans hinf
      · unfold bodyOf
        rw [hmf]
  · intro h
    unfold bodyOf
    cases hs : scanMatch none (rawOf text) with
    | some m => exact absurd (hasRun_of_scan hs) h
    | none =>
      have hmf : mirrorFragment (rawOf text) = [] := by
        unfold mirrorFragment
        rw [hs]
      rw [hmf, List.nil_append]

def mirrorWitnessInput : Str := "feeling very stressed about exams".data

/-- Witness for C10: a concrete input with a three-word run, on which the
run hypothesis is discharged explicitly. -/
theorem claim_C10_mirror_echo_witness :
    HasRun (rawOf mirrorWitnessInput) ∧
    ∃ f, 10 ≤ f.length ∧ f.length ≤ 60 ∧ f <:+: rawOf mirrorWitnessInput ∧
      bodyOf mirrorWitnessInput = aboutQuote f ++
        chooseBody (stressorsOf mirrorWitnessInput) (moodOf mirrorWitnessInput)
          (seedOf mirrorWitnessInput) := by
  have hlast : NonWordLast ([] : Str) := by
    intro p hp
    simp at hp
  have hpost : NonWordHead (" about exams".data) := by
    intro c hc
    rw [show ((" about exams".data : Str)).head? = some ' ' from rfl,
      Option.some.injEq] at hc
    rw [← hc]
    decide
  have hrun : HasRun (rawOf mirrorWitnessInput) :=
    ⟨[], "feeling very stressed about exams".data, by decide, hlast,
      "feeling".data, " ".data, "very".data, " ".data, "stressed".data,
      " about exams".data, by decide, ⟨by decide, by decide⟩,
      ⟨by decide, by decide⟩, ⟨by decide, by decide⟩, ⟨by decide, by decide⟩,
      ⟨by decide, by decide⟩, hpost⟩
  exact ⟨hrun, (claim_C10_mirror_echo mirrorWitnessInput).1 hrun⟩

end AiService
